import Mathlib

/-!
Shallow embedding of the `pam_limits` reconciliation module
(`src/system/pam_limits.py`, function `main`, lines 91-238).

Strings are modelled as `List Char`.  A file is a list of physical lines,
each including its trailing newline character (except possibly the last),
exactly as Python's `for line in f` yields them; `pyLines` performs that
split.  The per-line loop body (source lines 150-214) is `processLine`,
the whole loop is `processLines`, and `runMain` adds the flag validation
(line 132), the not-found append (lines 216-220) and the sentinel
re-append (lines 222-223).  The success value carries `changed`, the list
of chunks written to the temporary file, and `msg`; a `.error` result
models an abort (fail_json or an uncaught ValueError) before the atomic
move, which leaves the target file untouched (`finalContent`).
-/

namespace PamLimits

/-- A Python string, modelled as a list of characters. -/
abbrev Str := List Char

/-- The characters matched by the regex `\s` and stripped by `str.strip()`
in Python 2 (ASCII whitespace). -/
def pyIsSpace (c : Char) : Bool :=
  c = ' ' || c = '\t' || c = '\n' || c = '\x0b' || c = '\x0c' || c = '\r'

/-- `re.sub(r'\s+', ' ', line)` (source line 159): every maximal run of
whitespace characters is replaced by a single space. -/
def collapse : Str → Str
  | [] => []
  | [c] => if pyIsSpace c then [' '] else [c]
  | c :: d :: cs =>
    if pyIsSpace c then
      if pyIsSpace d then collapse (d :: cs) else ' ' :: collapse (d :: cs)
    else c :: collapse (d :: cs)

/-- Python `str.lstrip()`. -/
def lstripWS (l : Str) : Str := l.dropWhile pyIsSpace

/-- Python `str.rstrip()` (source line 171). -/
def rstripWS (l : Str) : Str := (l.reverse.dropWhile pyIsSpace).reverse

/-- Python `str.strip()`. -/
def stripWS (l : Str) : Str := rstripWS (lstripWS l)

/-- `line.split('#', 1)[1]` guarded by the bare `except` (source
lines 166-169): the text after the first `#`, or `''` when there is no
`#` (the IndexError branch). -/
def afterFirstHash (l : Str) : Str :=
  match l.dropWhile (fun c => c ≠ '#') with
  | [] => []
  | _ :: rest => rest

/-- Python `str.split(' ')` - split at every single space character,
keeping empty pieces (source line 179). -/
def splitSp : Str → List Str
  | [] => [[]]
  | c :: cs =>
    match splitSp cs with
    | [] => [[]]
    | f :: r => if c = ' ' then [] :: f :: r else (c :: f) :: r

/-- `newline` after source line 159: whitespace-collapsed and stripped. -/
def normLine (l : Str) : Str := stripWS (collapse l)

/-- The record body of a line: the normalized line cut at the first `#`
and right-stripped (source lines 165 and 171). -/
def recBody (l : Str) : Str :=
  rstripWS ((normLine l).takeWhile (fun c => c ≠ '#'))

/-- `line_fields` (source line 179). -/
def lineFields (l : Str) : List Str := splitSp (recBody l)

/-- Decimal digits of `n`, least significant first; fuel-driven so that it
is structurally recursive (the fuel `n` itself always suffices). -/
def toDigitsRev (fuel n : Nat) : List Nat :=
  match fuel with
  | 0 => []
  | fuel + 1 => if n = 0 then [] else n % 10 :: toDigitsRev fuel (n / 10)

/-- Python `str` of a non-negative integer. -/
def pyStrNat (n : Nat) : Str :=
  if n = 0 then ['0'] else ((toDigitsRev n n).reverse).map Nat.digitChar

/-- Python `str` of an integer (source lines 207 and 218): decimal digits,
with a leading `-` for negative values. -/
def pyStr (i : Int) : Str :=
  if i < 0 then '-' :: pyStrNat i.natAbs else pyStrNat i.natAbs

/-- Numeric value of a list of decimal digit characters. -/
def digitsVal (l : Str) : Nat :=
  l.foldl (fun a c => 10 * a + (c.toNat - 48)) 0

/-- Python 2 `int(s)` (source line 188): optional surrounding whitespace,
an optional sign, then at least one decimal digit; anything else raises
ValueError (`none`). -/
def pyInt? (s : Str) : Option Int :=
  let t := stripWS s
  let p : Bool × Str :=
    match t with
    | [] => (false, [])
    | c :: r =>
      if c = '-' then (true, r)
      else if c = '+' then (false, r)
      else (false, c :: r)
  if p.2 ≠ [] ∧ p.2.all Char.isDigit then
    some (if p.1 then -(digitsVal p.2 : Int) else (digitsVal p.2 : Int))
  else none

/-- The sentinel marker text (source lines 152 and 223). -/
def sentinelS : Str := "# End of file".toList

/-- `pam_types` (source line 95). -/
def pamTypes : List Str := ["soft".toList, "hard".toList, "-".toList]

/-- `pam_items` (source line 93). -/
def pamItems : List Str :=
  ["core".toList, "data".toList, "fsize".toList, "memlock".toList,
   "nofile".toList, "rss".toList, "stack".toList, "cpu".toList,
   "nproc".toList, "as".toList, "maxlogins".toList, "maxsyslogins".toList,
   "priority".toList, "locks".toList, "sigpending".toList,
   "msgqueue".toList, "nice".toList, "rtprio".toList, "chroot".toList]

/-- The module parameters (source lines 114-122).  `limit_type` and
`limit_item` are validated against `pamTypes` / `pamItems` by the
argument-spec `choices` before `main`'s body runs. -/
structure Params where
  domain : Str
  limit_type : Str
  limit_item : Str
  value : Int
  use_max : Bool
  use_min : Bool
  comment : Str
  deriving Repr, DecidableEq

/-- The mutable loop state of `main` (source lines 124, 141, 146-148):
`changed`, `message`, `found`, `has_eof`, `new_value`, plus the
loop-carried `new_comment` variable (source lines 122, 173-177). -/
structure St where
  found : Bool
  has_eof : Bool
  changed : Bool
  new_value : Int
  new_comment : Str
  message : Str
  deriving Repr, DecidableEq

/-- Source lines 173-177: default the comment to the line's own trailing
comment when the running `new_comment` is empty, then prepend `"\t#"`
when non-empty.  Note that this reads and rewrites the *loop-carried*
`new_comment` variable. -/
def newCommentUpd (cur old : Str) : Str :=
  let nc := if cur = [] then old else cur
  if nc ≠ [] then '\t' :: '#' :: nc else nc

/-- The rewritten record line (source lines 207 and 218): tab-joined
fields, the current `new_comment`, and a newline. -/
def newLimitLine (p : Params) (v : Int) (nc : Str) : Str :=
  p.domain ++ '\t' :: p.limit_type ++ '\t' :: p.limit_item ++ '\t' ::
    (pyStr v ++ nc ++ ['\n'])

/-- The loop body (source lines 150-214) for one physical line: returns
the updated state and the list of chunks written to the temporary file,
or `.error` when `int()` raises ValueError. -/
def processLine (p : Params) (st : St) (line : Str) :
    Except Str (St × List Str) :=
  if sentinelS.isPrefixOf line then .ok ({ st with has_eof := true }, [])
  else if ['#'].isPrefixOf line then .ok (st, [line])
  else if normLine line = [] then .ok (st, [line])
  else
    let nc := newCommentUpd st.new_comment (afterFirstHash line)
    let st1 := { st with new_comment := nc }
    match lineFields line with
    | [ld, lt, li, lv] =>
      match pyInt? lv with
      | none => .error ("invalid literal for int() with base 10: ".toList ++ lv)
      | some actual =>
        if ld = p.domain ∧ lt = p.limit_type ∧ li = p.limit_item then
          if p.value = actual then
            .ok ({ st1 with found := true, message := line }, [line])
          else
            let nv1 := if p.use_max then max p.value actual else st.new_value
            let nv := if p.use_min then min p.value actual else nv1
            if nv ≠ actual then
              let nl := newLimitLine p nv nc
              .ok ({ st1 with found := true, new_value := nv, changed := true, message := nl }, [nl])
            else
              .ok ({ st1 with found := true, new_value := nv, message := line }, [line])
        else .ok (st1, [line])
    | _ => .ok (st1, [line])

/-- The whole `for line in f` loop. -/
def processLines (p : Params) : St → List Str → Except Str (St × List Str)
  | st, [] => .ok (st, [])
  | st, l :: ls =>
    match processLine p st l with
    | .error e => .error e
    | .ok (st1, o1) =>
      match processLines p st1 ls with
      | .error e => .error e
      | .ok (st2, o2) => .ok (st2, o1 ++ o2)

/-- The state before the loop (source lines 124, 141, 146-148; the initial
`new_comment` is the caller's `comment` parameter, line 122). -/
def initSt (p : Params) : St :=
  { found := false, has_eof := false, changed := false,
    new_value := p.value, new_comment := p.comment, message := [] }

/-- `main` after the external precondition checks: flag validation
(source lines 132-133), the loop, the not-found append (lines 216-220)
and the sentinel re-append (lines 222-223).  Returns
`(changed, written chunks, msg)`. -/
def runMain (p : Params) (lines : List Str) :
    Except Str (Bool × List Str × Str) :=
  if p.use_max && p.use_min then
    .error "Cannot use use_min and use_max at the same time.".toList
  else
    match processLines p (initSt p) lines with
    | .error e => .error e
    | .ok (st, out) =>
      let r : St × List Str :=
        if st.found then (st, out)
        else
          let nl := newLimitLine p st.new_value st.new_comment
          ({ st with changed := true, message := nl }, out ++ [nl])
      let out3 := if r.1.has_eof then r.2 ++ [sentinelS] else r.2
      .ok (r.1.changed, out3, r.1.message)

/-- The target file's content after the operation: the temporary file's
content after a successful run (atomic_move, source line 229), the
original content when the operation aborted first. -/
def finalContent (p : Params) (lines : List Str) : Str :=
  match runMain p lines with
  | .ok (_, out, _) => out.flatten
  | .error _ => lines.flatten

/-- Split a file's content into physical lines as Python's file iteration
does: every line keeps its trailing newline; a final fragment without a
newline is a line of its own. -/
def pyLines : Str → List Str
  | [] => []
  | c :: cs =>
    if c = '\n' then ['\n'] :: pyLines cs
    else
      match pyLines cs with
      | [] => [[c]]
      | f :: r => (c :: f) :: r

/-- One full invocation on a file content: read, reconcile, commit.
Returns `(changed, new file content)`. -/
def applyOnce (p : Params) (content : Str) : Except Str (Bool × Str) :=
  match runMain p (pyLines content) with
  | .error e => .error e
  | .ok (ch, out, _) => .ok (ch, out.flatten)

/-- Decides whether a line takes one of the pass-through branches of the
loop body: a (non-sentinel) comment line, a blank line, a malformed line
(field count different from 4), or a well-formed record line whose key
differs from the requested key. -/
def passthruLine (p : Params) (l : Str) : Bool :=
  !sentinelS.isPrefixOf l &&
    (List.isPrefixOf ['#'] l || normLine l == [] ||
      (match lineFields l with
       | [ld, lt, li, lv] =>
         (pyInt? lv).isSome &&
           !(ld == p.domain && lt == p.limit_type && li == p.limit_item)
       | _ => true))

/-- Decides whether a line is a record line whose key equals the
requested key (with a parseable integer value). -/
def isMatchLine (p : Params) (l : Str) : Bool :=
  !sentinelS.isPrefixOf l && !(List.isPrefixOf ['#'] l) && !(normLine l == []) &&
    (match lineFields l with
     | [ld, lt, li, lv] =>
       ld == p.domain && lt == p.limit_type && li == p.limit_item &&
         (pyInt? lv).isSome
     | _ => false)

end PamLimits


namespace PamLimits

/-! ### Claim C1 and C2: the per-line merge policy -/

/-- The merge policy of source lines 198-202 for a matching line with
existing value `a`, given that `use_max` and `use_min` are not both set
and that the running `new_value` still equals the requested value. -/
def policyValue (p : Params) (a : Int) : Int :=
  if p.use_max then max p.value a
  else if p.use_min then min p.value a
  else p.value

/-- C1: For a record line whose key equals the desired key and whose
existing value `a` differs from the desired value, the resulting value is
`max(value, a)` under `use_max`, `min(value, a)` under `use_min`, and the
desired `value` otherwise; the line is rewritten and `changed` is set if
and only if the resulting value differs from `a`.  The hypothesis
`st.new_value = p.value` is the invariant of the loop-carried `new_value`
(it is only ever reassigned to a policy value, and `processLines` is
started from `initSt` where it is `p.value`; without policy flags it is
never reassigned at all). -/
theorem C1_matching_policy (p : Params) (st : St) (l : Str) (vs : Str) (a : Int)
    (hflag : ¬(p.use_max = true ∧ p.use_min = true))
    (hnv : st.new_value = p.value)
    (hs : sentinelS.isPrefixOf l = false)
    (hc : List.isPrefixOf ['#'] l = false)
    (hb : normLine l ≠ [])
    (hf : lineFields l = [p.domain, p.limit_type, p.limit_item, vs])
    (hv : pyInt? vs = some a)
    (hne : a ≠ p.value) :
    processLine p st l =
      (if policyValue p a = a then
        .ok ({ st with found := true, new_comment := newCommentUpd st.new_comment (afterFirstHash l), new_value := policyValue p a, message := l }, [l])
      else
        .ok ({ st with found := true, new_comment := newCommentUpd st.new_comment (afterFirstHash l), new_value := policyValue p a, changed := true, message := newLimitLine p (policyValue p a) (newCommentUpd st.new_comment (afterFirstHash l)) }, [newLimitLine p (policyValue p a) (newCommentUpd st.new_comment (afterFirstHash l))])) := by
  have hne' : ¬(p.value = a) := fun h => hne h.symm
  cases hmax : p.use_max <;> cases hmin : p.use_min
  · simp only [processLine, hs, hc, hb, hf, hv, policyValue, hmax, hmin]
    simp [hne', hnv]
  · simp only [processLine, hs, hc, hb, hf, hv, policyValue, hmax, hmin]
    simp [hne', hnv]
    split_ifs <;> first | rfl | omega
  · simp only [processLine, hs, hc, hb, hf, hv, policyValue, hmax, hmin]
    simp [hne', hnv]
    split_ifs <;> first | rfl | omega
  · exact absurd ⟨hmax, hmin⟩ hflag

end PamLimits

namespace PamLimits

/-- Witness for C1: desired joe/soft/nofile = 5 against an existing value
4 and no policy flag: the policy value is 5, which differs from 4, so the
line is rewritten and `changed` is set. -/
theorem C1_witness :
    processLine ⟨"joe".toList, "soft".toList, "nofile".toList, 5, false, false, []⟩
      ⟨false, false, false, 5, [], []⟩ "joe soft nofile 4\n".toList =
    .ok (⟨true, false, true, 5, [], "joe\tsoft\tnofile\t5\n".toList⟩,
         ["joe\tsoft\tnofile\t5\n".toList]) := by
  have h := C1_matching_policy
    ⟨"joe".toList, "soft".toList, "nofile".toList, 5, false, false, []⟩
    ⟨false, false, false, 5, [], []⟩ "joe soft nofile 4\n".toList "4".toList 4
    (by decide) rfl (by decide) (by decide) (by decide) (by decide) (by decide)
    (by decide)
  simpa using h

/-- C2: For a record line whose key equals the desired key and whose
existing value already equals the desired value, the original line is
emitted unchanged and `changed` is untouched, regardless of the
`use_min` / `use_max` flags: the exact-match test of source line 193
precedes the policy computation of lines 198-202, which is never
reached. -/
theorem C2_exact_match (p : Params) (st : St) (l : Str) (vs : Str)
    (hs : sentinelS.isPrefixOf l = false)
    (hc : List.isPrefixOf ['#'] l = false)
    (hb : normLine l ≠ [])
    (hf : lineFields l = [p.domain, p.limit_type, p.limit_item, vs])
    (hv : pyInt? vs = some p.value) :
    processLine p st l =
      .ok ({ st with found := true, new_comment := newCommentUpd st.new_comment (afterFirstHash l), message := l }, [l]) := by
  simp [processLine, hs, hc, hb, hf, hv]

/-- Witness for C2: existing value 5 equals the desired value 5 while
`use_min` is set: the line passes through and `changed` stays false. -/
theorem C2_witness :
    processLine ⟨"joe".toList, "soft".toList, "nofile".toList, 5, false, true, []⟩
      ⟨false, false, false, 5, [], []⟩ "joe soft nofile 5\n".toList =
    .ok (⟨true, false, false, 5, [], "joe soft nofile 5\n".toList⟩,
         ["joe soft nofile 5\n".toList]) := by
  have h := C2_exact_match
    ⟨"joe".toList, "soft".toList, "nofile".toList, 5, false, true, []⟩
    ⟨false, false, false, 5, [], []⟩ "joe soft nofile 5\n".toList "5".toList
    (by decide) (by decide) (by decide) (by decide) (by decide)
  simpa using h

/-- C7: every comment line, blank line, malformed line (field count other
than 4 — in particular a record-looking line with 5 fields, whatever its
first three fields), and well-formed record line with a non-matching key
is emitted byte-identically, and neither `changed` nor `found` nor
`has_eof` moves. -/
theorem C7_passthrough (p : Params) (st : St) (l : Str)
    (h : passthruLine p l = true) :
    ∃ st1, processLine p st l = .ok (st1, [l]) ∧ st1.changed = st.changed ∧
      st1.found = st.found ∧ st1.has_eof = st.has_eof := by
  unfold passthruLine at h
  simp only [Bool.and_eq_true, Bool.or_eq_true, Bool.not_eq_eq_eq_not,
    Bool.not_true] at h
  obtain ⟨hs, hrest⟩ := h
  by_cases hcp : List.isPrefixOf ['#'] l = true
  · exact ⟨st, by simp [processLine, hs, hcp], rfl, rfl, rfl⟩
  by_cases hb2 : normLine l = []
  · exact ⟨st, by simp [processLine, hs, hb2, ite_self], rfl, rfl, rfl⟩
  have hm : (match lineFields l with
      | [ld, lt, li, lv] =>
        (pyInt? lv).isSome &&
          !(ld == p.domain && lt == p.limit_type && li == p.limit_item)
      | _ => true) = true := by
    rcases hrest with (hc | hb) | hm
    · exact absurd hc hcp
    · exact absurd (by simpa using hb) hb2
    · exact hm
  refine ⟨{ st with new_comment := newCommentUpd st.new_comment (afterFirstHash l) }, ?_, rfl, rfl, rfl⟩
  unfold processLine
  revert hm
  generalize hlf : lineFields l = lf
  rcases lf with _ | ⟨a1, _ | ⟨a2, _ | ⟨a3, _ | ⟨a4, _ | ⟨a5, as⟩⟩⟩⟩⟩ <;>
      intro hm <;> try simp [hs, hcp, hb2]
  simp only [Bool.and_eq_true] at hm
  obtain ⟨hv, hkey⟩ := hm
  obtain ⟨v, hv⟩ := Option.isSome_iff_exists.mp hv
  have hkey' : ¬(a1 = p.domain ∧ a2 = p.limit_type ∧ a3 = p.limit_item) := by
    intro hk
    simp [hk.1, hk.2.1, hk.2.2] at hkey
  simp [hs, hcp, hb2, hv, hkey']

end PamLimits

namespace PamLimits

/-- Witness for C7: a record-looking line with 5 fields whose first three
fields equal the desired key is still passed through untouched. -/
theorem C7_witness :
    ∃ st1, processLine ⟨"joe".toList, "soft".toList, "nofile".toList, 5, false, false, []⟩
        ⟨false, false, false, 5, [], []⟩ "joe soft nofile 7 extra\n".toList =
      .ok (st1, ["joe soft nofile 7 extra\n".toList]) ∧
      st1.changed = (⟨false, false, false, 5, [], []⟩ : St).changed ∧
      st1.found = (⟨false, false, false, 5, [], []⟩ : St).found ∧
      st1.has_eof = (⟨false, false, false, 5, [], []⟩ : St).has_eof :=
  C7_passthrough ⟨"joe".toList, "soft".toList, "nofile".toList, 5, false, false, []⟩
    ⟨false, false, false, 5, [], []⟩ "joe soft nofile 7 extra\n".toList (by decide)

/-- C8: when both `use_max` and `use_min` are set, `main` fails with the
precondition message of source line 133 before the file is opened — the
result does not depend on the file's lines at all — and the target file
keeps its original content. -/
theorem C8_flag_conflict (p : Params) (lines : List Str)
    (hmax : p.use_max = true) (hmin : p.use_min = true) :
    runMain p lines =
      .error "Cannot use use_min and use_max at the same time.".toList ∧
    finalContent p lines = lines.flatten := by
  constructor
  · simp [runMain, hmax, hmin]
  · simp [finalContent, runMain, hmax, hmin]

/-- Witness for C8 on a concrete request and file. -/
theorem C8_witness :
    runMain ⟨"joe".toList, "soft".toList, "nofile".toList, 5, true, true, []⟩
      ["joe soft nofile 4\n".toList] =
      .error "Cannot use use_min and use_max at the same time.".toList ∧
    finalContent ⟨"joe".toList, "soft".toList, "nofile".toList, 5, true, true, []⟩
      ["joe soft nofile 4\n".toList] = "joe soft nofile 4\n".toList :=
  C8_flag_conflict ⟨"joe".toList, "soft".toList, "nofile".toList, 5, true, true, []⟩
    ["joe soft nofile 4\n".toList] rfl rfl

/-- C4 (code evaluation at the failing input): with no comment override,
the rewritten joe line does not carry its own (empty) trailing comment
but the comment of the unrelated bob line, wrapped twice in `"\t#"`,
because `new_comment` is a loop-carried variable (source lines 173-177)
that keeps the previous line's comment and is re-prefixed on every
parsed line.  The claimed output line would be
`"joe\tsoft\tnofile\t5\n"`. -/
theorem C4_comment_crossline_eval :
    runMain ⟨"joe".toList, "soft".toList, "nofile".toList, 5, false, false, []⟩
      (pyLines "bob soft core 1 # one\njoe soft nofile 4\n".toList) =
    .ok (true,
      ["bob soft core 1 # one\n".toList,
       "joe\tsoft\tnofile\t5\t#\t# one\n\n".toList],
      "joe\tsoft\tnofile\t5\t#\t# one\n\n".toList) := by rfl

/-- C5 (code evaluation at the failing input): the key joe/soft/nofile is
absent, so a record is appended and `changed` is set — but the appended
line carries the unrelated bob line's comment instead of the empty
override, again because of the loop-carried `new_comment` (and it even
embeds that comment's original newline, producing a double newline).
The claimed appended line would be `"joe\tsoft\tnofile\t5\n"`. -/
theorem C5_append_comment_eval :
    runMain ⟨"joe".toList, "soft".toList, "nofile".toList, 5, false, false, []⟩
      (pyLines "bob soft core 1 # one\n".toList) =
    .ok (true,
      ["bob soft core 1 # one\n".toList,
       "joe\tsoft\tnofile\t5\t# one\n\n".toList],
      "joe\tsoft\tnofile\t5\t# one\n\n".toList) := by rfl

/-- Counterexample to C3 as stated: for the domain `"a b"` (which the
module accepts — `domain` is an unvalidated string) the appended record
line re-parses as a 5-field malformed line, so a second application does
not find the key, appends again, reports `changed = true` and changes
the file content. -/
theorem C3_counterexample :
    applyOnce ⟨"a b".toList, "soft".toList, "nofile".toList, 5, false, false, []⟩ [] =
      .ok (true, "a b\tsoft\tnofile\t5\n".toList) ∧
    applyOnce ⟨"a b".toList, "soft".toList, "nofile".toList, 5, false, false, []⟩
      "a b\tsoft\tnofile\t5\n".toList =
      .ok (true, "a b\tsoft\tnofile\t5\na b\tsoft\tnofile\t5\n".toList) :=
  ⟨rfl, rfl⟩

end PamLimits

namespace PamLimits

/-! ### Loop-level lemmas for the sentinel and error claims -/

/-- A line on which `int(line_fields[3])` raises: it reaches the record
stage (not sentinel, not comment, not blank), splits into exactly 4
fields, and the value field is not an integer literal. -/
def badValueLine (l : Str) : Bool :=
  !sentinelS.isPrefixOf l && !(List.isPrefixOf ['#'] l) && !(normLine l == []) &&
    (match lineFields l with
     | [_, _, _, lv] => (pyInt? lv).isNone
     | _ => false)

/-- Every rewritten record line ends in a newline character. -/
theorem newLimitLine_getLast (p : Params) (v : Int) (nc : Str) :
    (newLimitLine p v nc).getLast? = some '\n' := by
  have h : newLimitLine p v nc =
      (p.domain ++ '\t' :: p.limit_type ++ '\t' :: p.limit_item ++ '\t' ::
        (pyStr v ++ nc)) ++ ['\n'] := by
    simp [newLimitLine]
  rw [h, List.getLast?_concat]

/-- `new_value` as source lines 183-184 compute it for a matching line
with existing value `a` (the `use_min` assignment overwrites the
`use_max` one; without flags the loop-carried `new_value` is kept). -/
def codeNv (p : Params) (st : St) (a : Int) : Int :=
  if p.use_min then min p.value a
  else if p.use_max then max p.value a
  else st.new_value

/-- The comment-updated intermediate state of source lines 173-177. -/
def stComm (st : St) (l : Str) : St :=
  { st with new_comment := newCommentUpd st.new_comment (afterFirstHash l) }

/-- Exhaustive case analysis of the loop body, one case per control path
of source lines 150-214. -/
theorem processLine_elim (p : Params) (st : St) (l : Str)
    {motive : Except Str (St × List Str) → Prop}
    (hsent : sentinelS.isPrefixOf l = true →
      motive (.ok ({ st with has_eof := true }, [])))
    (hcomm : sentinelS.isPrefixOf l = false → List.isPrefixOf ['#'] l = true →
      motive (.ok (st, [l])))
    (hblank : sentinelS.isPrefixOf l = false → List.isPrefixOf ['#'] l = false →
      normLine l = [] → motive (.ok (st, [l])))
    (hmal : sentinelS.isPrefixOf l = false → List.isPrefixOf ['#'] l = false →
      normLine l ≠ [] → (∀ d t i v, lineFields l ≠ [d, t, i, v]) →
      motive (.ok (stComm st l, [l])))
    (hbad : ∀ d t i v, sentinelS.isPrefixOf l = false →
      List.isPrefixOf ['#'] l = false → normLine l ≠ [] →
      lineFields l = [d, t, i, v] → pyInt? v = none →
      motive (.error ("invalid literal for int() with base 10: ".toList ++ v)))
    (hnomatch : ∀ d t i v a, sentinelS.isPrefixOf l = false →
      List.isPrefixOf ['#'] l = false → normLine l ≠ [] →
      lineFields l = [d, t, i, v] → pyInt? v = some a →
      ¬(d = p.domain ∧ t = p.limit_type ∧ i = p.limit_item) →
      motive (.ok (stComm st l, [l])))
    (hexact : ∀ v, sentinelS.isPrefixOf l = false →
      List.isPrefixOf ['#'] l = false → normLine l ≠ [] →
      lineFields l = [p.domain, p.limit_type, p.limit_item, v] →
      pyInt? v = some p.value →
      motive (.ok ({ stComm st l with found := true, message := l }, [l])))
    (hkeep : ∀ v a, sentinelS.isPrefixOf l = false →
      List.isPrefixOf ['#'] l = false → normLine l ≠ [] →
      lineFields l = [p.domain, p.limit_type, p.limit_item, v] →
      pyInt? v = some a → p.value ≠ a → codeNv p st a = a →
      motive (.ok ({ stComm st l with found := true, new_value := a, message := l }, [l])))
    (hrw : ∀ v a, sentinelS.isPrefixOf l = false →
      List.isPrefixOf ['#'] l = false → normLine l ≠ [] →
      lineFields l = [p.domain, p.limit_type, p.limit_item, v] →
      pyInt? v = some a → p.value ≠ a → codeNv p st a ≠ a →
      motive (.ok ({ stComm st l with found := true, new_value := codeNv p st a, changed := true, message := newLimitLine p (codeNv p st a) (newCommentUpd st.new_comment (afterFirstHash l)) },
        [newLimitLine p (codeNv p st a) (newCommentUpd st.new_comment (afterFirstHash l))]))) :
    motive (processLine p st l) := by
  by_cases hs : sentinelS.isPrefixOf l = true
  · rw [show processLine p st l = .ok ({ st with has_eof := true }, []) from
      by simp [processLine, hs]]
    exact hsent hs
  have hs' : sentinelS.isPrefixOf l = false := by
    cases h2 : sentinelS.isPrefixOf l
    · rfl
    · exact absurd h2 hs
  by_cases hc : List.isPrefixOf ['#'] l = true
  · rw [show processLine p st l = .ok (st, [l]) from by simp [processLine, hs', hc]]
    exact hcomm hs' hc
  have hc' : List.isPrefixOf ['#'] l = false := by
    cases h2 : List.isPrefixOf ['#'] l
    · rfl
    · exact absurd h2 hc
  by_cases hb : normLine l = []
  · rw [show processLine p st l = .ok (st, [l]) from
      by simp [processLine, hs', hc', hb]]
    exact hblank hs' hc' hb
  rcases hlf : lineFields l with _ | ⟨a1, _ | ⟨a2, _ | ⟨a3, _ | ⟨a4, _ | ⟨a5, as⟩⟩⟩⟩⟩
  ·
    rw [show processLine p st l = .ok (stComm st l, [l]) from
      by simp [processLine, stComm, hs', hc', hb, hlf]]
    exact hmal hs' hc' hb (by simp [hlf])
  ·
    rw [show processLine p st l = .ok (stComm st l, [l]) from
      by simp [processLine, stComm, hs', hc', hb, hlf]]
    exact hmal hs' hc' hb (by simp [hlf])
  ·
    rw [show processLine p st l = .ok (stComm st l, [l]) from
      by simp [processLine, stComm, hs', hc', hb, hlf]]
    exact hmal hs' hc' hb (by simp [hlf])
  ·
    rw [show processLine p st l = .ok (stComm st l, [l]) from
      by simp [processLine, stComm, hs', hc', hb, hlf]]
    exact hmal hs' hc' hb (by simp [hlf])
  ·
    cases hv : pyInt? a4 with
    | none =>
      rw [show processLine p st l =
          .error ("invalid literal for int() with base 10: ".toList ++ a4) from
        by simp [processLine, hs', hc', hb, hlf, hv]]
      exact hbad a1 a2 a3 a4 hs' hc' hb hlf hv
    | some a =>
      by_cases hk : a1 = p.domain ∧ a2 = p.limit_type ∧ a3 = p.limit_item
      · obtain ⟨hk1, hk2, hk3⟩ := hk
        subst hk1; subst hk2; subst hk3
        by_cases hea : p.value = a
        · rw [show processLine p st l =
              .ok ({ stComm st l with found := true, message := l }, [l]) from
            by simp [processLine, stComm, hs', hc', hb, hlf, hv, ← hea]]
          exact hexact a4 hs' hc' hb hlf (hea ▸ hv)
        · by_cases hnv : codeNv p st a = a
          · rw [show processLine p st l =
                .ok ({ stComm st l with found := true, new_value := a, message := l }, [l]) from by
              have h2 : codeNv p st a = a := hnv
              simp only [codeNv] at h2
              simp only [processLine, stComm, hs', hc', hb, hlf, hv]
              simp [hea, h2]]
            exact hkeep a4 a hs' hc' hb hlf hv hea hnv
          · rw [show processLine p st l =
                .ok ({ stComm st l with found := true, new_value := codeNv p st a, changed := true, message := newLimitLine p (codeNv p st a) (newCommentUpd st.new_comment (afterFirstHash l)) },
                  [newLimitLine p (codeNv p st a) (newCommentUpd st.new_comment (afterFirstHash l))]) from by
              have h2 : codeNv p st a ≠ a := hnv
              simp only [codeNv] at h2 ⊢
              simp only [processLine, stComm, hs', hc', hb, hlf, hv]
              simp [hea, h2]]
            exact hrw a4 a hs' hc' hb hlf hv hea hnv
      · rw [show processLine p st l = .ok (stComm st l, [l]) from
          by simp [processLine, stComm, hs', hc', hb, hlf, hv, hk]]
        exact hnomatch a1 a2 a3 a4 a hs' hc' hb hlf hv hk
  ·
    rw [show processLine p st l = .ok (stComm st l, [l]) from
      by simp [processLine, stComm, hs', hc', hb, hlf]]
    exact hmal hs' hc' hb (by simp [hlf])

/-- The loop body leaves `has_eof` unchanged except on a sentinel line,
where it sets it. -/
theorem processLine_hasEof (p : Params) (st : St) (l : Str) (st1 : St)
    (o : List Str) (h : processLine p st l = .ok (st1, o)) :
    st1.has_eof = (st.has_eof || sentinelS.isPrefixOf l) := by
  revert h
  refine @processLine_elim p st l
    (fun r => r = .ok (st1, o) →
      st1.has_eof = (st.has_eof || sentinelS.isPrefixOf l))
    ?_ ?_ ?_ ?_ ?_ ?_ ?_ ?_ ?_ <;> intros <;> simp_all [stComm] <;>
    (intros; subst_vars; simp_all [List.isPrefixOf_iff_prefix])

/-- Every chunk the loop body emits is either the input line itself (and
then that line is not sentinel-prefixed), or a rewritten record line,
which ends in a newline. -/
theorem processLine_chunk (p : Params) (st : St) (l : Str) (st1 : St)
    (o : List Str) (h : processLine p st l = .ok (st1, o)) :
    ∀ c ∈ o, (c = l ∧ sentinelS.isPrefixOf l = false) ∨
      c.getLast? = some '\n' := by
  revert h
  refine @processLine_elim p st l
    (fun r => r = .ok (st1, o) →
      ∀ c ∈ o, (c = l ∧ sentinelS.isPrefixOf l = false) ∨
        c.getLast? = some '\n')
    ?_ ?_ ?_ ?_ ?_ ?_ ?_ ?_ ?_ <;> intros <;> simp_all [stComm] <;>
    (intros; subst_vars;
     simp_all [List.isPrefixOf_iff_prefix, newLimitLine_getLast])

/-- `found` can only move from `false` to `true`, never back. -/
theorem processLine_found_mono (p : Params) (st : St) (l : Str) (st1 : St)
    (o : List Str) (h : processLine p st l = .ok (st1, o))
    (hf : st.found = true) : st1.found = true := by
  revert h
  refine @processLine_elim p st l
    (fun r => r = .ok (st1, o) → st1.found = true)
    ?_ ?_ ?_ ?_ ?_ ?_ ?_ ?_ ?_ <;> intros <;> simp_all [stComm] <;>
    (intros; subst_vars; simp_all)

/-- One unfolding of the loop on a cons cell. -/
theorem processLines_cons_eq (p : Params) (st : St) (l : Str) (ls : List Str) :
    processLines p st (l :: ls) =
      (match processLine p st l with
       | .error e => .error e
       | .ok (st1, o1) =>
         match processLines p st1 ls with
         | .error e => .error e
         | .ok (st2, o2) => .ok (st2, o1 ++ o2)) := rfl

/-- The loop propagates an error raised on the first line. -/
theorem processLines_cons_error (p : Params) (st : St) (l : Str)
    (ls : List Str) (e : Str) (hpl : processLine p st l = .error e) :
    processLines p st (l :: ls) = .error e := by
  rw [processLines_cons_eq, hpl]

/-- The loop propagates an error raised in the tail. -/
theorem processLines_cons_error2 (p : Params) (st stm : St) (l : Str)
    (ls o1 : List Str) (e : Str) (hpl : processLine p st l = .ok (stm, o1))
    (hrest : processLines p stm ls = .error e) :
    processLines p st (l :: ls) = .error e := by
  rw [processLines_cons_eq, hpl]
  simp only [hrest]

/-- The loop concatenates the head chunks with the tail chunks. -/
theorem processLines_cons_ok (p : Params) (st stm st2 : St) (l : Str)
    (ls o1 o2 : List Str) (hpl : processLine p st l = .ok (stm, o1))
    (hrest : processLines p stm ls = .ok (st2, o2)) :
    processLines p st (l :: ls) = .ok (st2, o1 ++ o2) := by
  rw [processLines_cons_eq, hpl]
  simp only [hrest]

/-- Loop-level version of `processLine_hasEof`. -/
theorem processLines_hasEof (p : Params) (L : List Str) :
    ∀ (st st1 : St) (out : List Str),
      processLines p st L = .ok (st1, out) →
      st1.has_eof = (st.has_eof || L.any fun l => sentinelS.isPrefixOf l) := by
  induction L with
  | nil =>
    intro st st1 out h
    simp only [processLines] at h
    cases h
    simp
  | cons l ls ih =>
    intro st st1 out h
    cases hpl : processLine p st l with
    | error e => rw [processLines_cons_error p st l ls e hpl] at h; cases h
    | ok r =>
      obtain ⟨stm, o1⟩ := r
      cases hrest : processLines p stm ls with
      | error e =>
        rw [processLines_cons_error2 p st stm l ls o1 e hpl hrest] at h
        cases h
      | ok r2 =>
        obtain ⟨st2, o2⟩ := r2
        rw [processLines_cons_ok p st stm st2 l ls o1 o2 hpl hrest] at h
        cases h
        have h1 := processLine_hasEof p st l stm o1 hpl
        have h2 := ih _ _ _ hrest
        simp [h2, h1, List.any_cons, Bool.or_assoc]

/-- Loop-level version of `processLine_chunk`. -/
theorem processLines_chunks (p : Params) (L : List Str) :
    ∀ (st st1 : St) (out : List Str),
      processLines p st L = .ok (st1, out) →
      ∀ c ∈ out, (∃ l ∈ L, c = l ∧ sentinelS.isPrefixOf l = false) ∨
        c.getLast? = some '\n' := by
  induction L with
  | nil =>
    intro st st1 out h c hc
    simp only [processLines] at h
    cases h
    cases hc
  | cons l ls ih =>
    intro st st1 out h c hc
    cases hpl : processLine p st l with
    | error e => rw [processLines_cons_error p st l ls e hpl] at h; cases h
    | ok r =>
      obtain ⟨stm, o1⟩ := r
      cases hrest : processLines p stm ls with
      | error e =>
        rw [processLines_cons_error2 p st stm l ls o1 e hpl hrest] at h
        cases h
      | ok r2 =>
        obtain ⟨st2, o2⟩ := r2
        rw [processLines_cons_ok p st stm st2 l ls o1 o2 hpl hrest] at h
        cases h
        rcases List.mem_append.mp hc with h1 | h2
        · rcases processLine_chunk p st l stm o1 hpl c h1 with ⟨hcl, hns⟩ | hnl
          · exact Or.inl ⟨l, List.mem_cons_self .., hcl, hns⟩
          · exact Or.inr hnl
        · rcases ih _ _ _ hrest c h2 with ⟨l2, hl2, hcl, hns⟩ | hnl
          · exact Or.inl ⟨l2, List.mem_cons_of_mem _ hl2, hcl, hns⟩
          · exact Or.inr hnl

/-- A bad value line makes the loop body raise, whatever the state. -/
theorem processLine_error_of_bad (p : Params) (st : St) (l : Str)
    (h : badValueLine l = true) : ∃ e, processLine p st l = .error e := by
  unfold badValueLine at h
  simp only [Bool.and_eq_true, Bool.not_eq_eq_eq_not, Bool.not_true,
    beq_eq_false_iff_ne, ne_eq] at h
  obtain ⟨⟨⟨hs, hc⟩, hb⟩, hm⟩ := h
  unfold processLine
  revert hm
  generalize hlf : lineFields l = lf
  rcases lf with _ | ⟨a1, _ | ⟨a2, _ | ⟨a3, _ | ⟨a4, _ | ⟨a5, as⟩⟩⟩⟩⟩ <;>
    intro hm <;> try cases hm
  have hnone : pyInt? a4 = none := Option.isNone_iff_eq_none.mp hm
  exact ⟨"invalid literal for int() with base 10: ".toList ++ a4,
    by simp [hs, hc, hb, hnone]⟩

/-- A bad value line anywhere in the input makes the whole loop raise. -/
theorem processLines_error_of_bad (p : Params) (L : List Str)
    (h : ∃ l ∈ L, badValueLine l = true) :
    ∀ st, ∃ e, processLines p st L = .error e := by
  induction L with
  | nil => obtain ⟨l, hl, _⟩ := h; cases hl
  | cons l ls ih =>
    intro st
    obtain ⟨l0, hl0, hbad⟩ := h
    cases hpl : processLine p st l with
    | error e => exact ⟨e, processLines_cons_error p st l ls e hpl⟩
    | ok r =>
      obtain ⟨stm, o1⟩ := r
      rcases List.mem_cons.mp hl0 with rfl | htail
      · obtain ⟨e, he⟩ := processLine_error_of_bad p st l0 hbad
        rw [hpl] at he; cases he
      · obtain ⟨e, he⟩ := ih ⟨l0, htail, hbad⟩ stm
        exact ⟨e, processLines_cons_error2 p st stm l ls o1 e hpl he⟩

end PamLimits

namespace PamLimits

/-- No chunk written by the loop is the bare sentinel string: pass-through
chunks are non-sentinel-prefixed input lines, rewritten chunks end in a
newline (which the sentinel does not). -/
theorem chunk_ne_sentinel (p : Params) (lines : List Str) (st0 st : St)
    (out : List Str) (hpl : processLines p st0 lines = .ok (st, out)) :
    ∀ c ∈ out, c ≠ sentinelS := by
  intro c hc hceq
  rcases processLines_chunks p lines st0 st out hpl c hc with ⟨l, _, hcl, hns⟩ | hnl
  · rw [hceq] at hcl
    rw [← hcl] at hns
    exact absurd hns (by decide)
  · rw [hceq] at hnl
    exact absurd hnl (by decide)

/-- Structure of a successful run: the written chunks are a body of
non-sentinel chunks, followed by the bare sentinel exactly when some
input line is sentinel-prefixed. -/
theorem runMain_ok_body (p : Params) (lines : List Str) (ch : Bool)
    (chunks : List Str) (m : Str) (h : runMain p lines = .ok (ch, chunks, m)) :
    ∃ body, (∀ c ∈ body, c ≠ sentinelS) ∧
      chunks = body ++
        (if lines.any (fun l => sentinelS.isPrefixOf l) then [sentinelS]
         else []) := by
  unfold runMain at h
  by_cases hf : (p.use_max && p.use_min) = true
  · rw [if_pos hf] at h; cases h
  · rw [if_neg hf] at h
    cases hpl : processLines p (initSt p) lines with
    | error e => rw [hpl] at h; cases h
    | ok r =>
      obtain ⟨st, out⟩ := r
      rw [hpl] at h
      have hany : st.has_eof = lines.any fun l => sentinelS.isPrefixOf l := by
        have := processLines_hasEof p lines (initSt p) st out hpl
        simpa [initSt] using this
      have hmem := chunk_ne_sentinel p lines (initSt p) st out hpl
      by_cases hfound : st.found = true
      · cases heof : st.has_eof with
        | false =>
          obtain ⟨h1, h2, h3⟩ : st.changed = ch ∧ out = chunks ∧ st.message = m := by
            simpa [hfound, heof] using h
          exact ⟨out, hmem, by rw [← hany, heof, if_neg (by simp), ← h2, List.append_nil]⟩
        | true =>
          obtain ⟨h1, h2, h3⟩ : st.changed = ch ∧ out ++ [sentinelS] = chunks ∧ st.message = m := by
            simpa [hfound, heof] using h
          exact ⟨out, hmem, by rw [← hany, heof, if_pos rfl, ← h2]⟩
      · have hfound' : st.found = false := by
          cases h2 : st.found
          · rfl
          · exact absurd h2 hfound
        cases heof : st.has_eof with
        | false =>
          obtain ⟨h1, h2, h3⟩ : true = ch ∧
              out ++ [newLimitLine p st.new_value st.new_comment] = chunks ∧
              newLimitLine p st.new_value st.new_comment = m := by
            simpa [hfound', heof] using h
          refine ⟨out ++ [newLimitLine p st.new_value st.new_comment], ?_, ?_⟩
          · intro c hc
            rcases List.mem_append.mp hc with hc1 | hc2
            · exact hmem c hc1
            · rw [List.mem_singleton.mp hc2]
              intro hbad
              have := newLimitLine_getLast p st.new_value st.new_comment
              rw [hbad] at this
              exact absurd this (by decide)
          · rw [← hany, heof, if_neg (by simp), ← h2, List.append_nil]
        | true =>
          obtain ⟨h1, h2, h3⟩ : true = ch ∧
              (out ++ [newLimitLine p st.new_value st.new_comment]) ++ [sentinelS] = chunks ∧
              newLimitLine p st.new_value st.new_comment = m := by
            simpa [hfound', heof] using h
          refine ⟨out ++ [newLimitLine p st.new_value st.new_comment], ?_, ?_⟩
          · intro c hc
            rcases List.mem_append.mp hc with hc1 | hc2
            · exact hmem c hc1
            · rw [List.mem_singleton.mp hc2]
              intro hbad
              have := newLimitLine_getLast p st.new_value st.new_comment
              rw [hbad] at this
              exact absurd this (by decide)
          · rw [← hany, heof, if_pos rfl, ← h2]

end PamLimits

namespace PamLimits

/-- C6: on a successful run, if some input line starts with
`"# End of file"` the output's final chunk is the sentinel (re-appended
after everything, including a newly appended record); if no input line
does, no sentinel is emitted at all. -/
theorem C6_sentinel_preserved (p : Params) (lines : List Str) (ch : Bool)
    (chunks : List Str) (m : Str) (h : runMain p lines = .ok (ch, chunks, m)) :
    ((∃ l ∈ lines, sentinelS.isPrefixOf l = true) →
      chunks.getLast? = some sentinelS) ∧
    ((∀ l ∈ lines, sentinelS.isPrefixOf l = false) →
      ∀ c ∈ chunks, c ≠ sentinelS) := by
  obtain ⟨body, hbody, hchunks⟩ := runMain_ok_body p lines ch chunks m h
  constructor
  · rintro ⟨l, hl, hpre⟩
    have hany : (lines.any fun l => sentinelS.isPrefixOf l) = true :=
      List.any_eq_true.mpr ⟨l, hl, hpre⟩
    rw [hchunks, hany]
    simp [List.getLast?_concat]
  · intro hall c hc
    have hany : (lines.any fun l => sentinelS.isPrefixOf l) = false := by
      rw [List.any_eq_false]
      intro l hl
      simp [hall l hl]
    rw [hchunks, hany] at hc
    simp only [if_neg Bool.false_ne_true, List.append_nil] at hc
    exact hbody c hc

/-- Witness for C6: a file whose last line is the sentinel; the rewritten
record is followed by the re-appended sentinel. -/
theorem C6_witness :
    (["joe\tsoft\tnofile\t5\n".toList, sentinelS] : List Str).getLast? =
      some sentinelS :=
  (C6_sentinel_preserved
    ⟨"joe".toList, "soft".toList, "nofile".toList, 5, false, false, []⟩
    (pyLines "joe soft nofile 4\n# End of file".toList) true
    ["joe\tsoft\tnofile\t5\n".toList, sentinelS]
    "joe\tsoft\tnofile\t5\n".toList rfl).1
    ⟨"# End of file".toList, by decide, by decide⟩

/-- C9: a line that reaches the record stage with exactly 4 fields and a
non-integer value field makes the operation abort with an uncaught
ValueError (whatever else the file contains), and the original file
content stays untouched because the atomic move is never reached. -/
theorem C9_parse_error_aborts (p : Params) (lines : List Str)
    (hflag : ¬(p.use_max = true ∧ p.use_min = true))
    (hbad : ∃ l ∈ lines, badValueLine l = true) :
    (∃ e, runMain p lines = .error e) ∧
    finalContent p lines = lines.flatten := by
  obtain ⟨e, he⟩ := processLines_error_of_bad p lines hbad (initSt p)
  have hf : (p.use_max && p.use_min) = false := by
    cases hm1 : p.use_max <;> cases hm2 : p.use_min <;> simp_all
  constructor
  · exact ⟨e, by simp [runMain, hf, he]⟩
  · simp [finalContent, runMain, hf, he]

/-- Witness for C9: the file `"joe soft nofile abc\n"`. -/
theorem C9_witness :
    (∃ e, runMain ⟨"joe".toList, "soft".toList, "nofile".toList, 5, false, false, []⟩
        (pyLines "joe soft nofile abc\n".toList) = .error e) ∧
    finalContent ⟨"joe".toList, "soft".toList, "nofile".toList, 5, false, false, []⟩
        (pyLines "joe soft nofile abc\n".toList) =
      (pyLines "joe soft nofile abc\n".toList).flatten :=
  C9_parse_error_aborts
    ⟨"joe".toList, "soft".toList, "nofile".toList, 5, false, false, []⟩
    (pyLines "joe soft nofile abc\n".toList) (by simp)
    ⟨"joe soft nofile abc\n".toList, by decide, by decide⟩

/-- C10: every sentinel-prefixed input line is consumed (the loop body
emits nothing for it, only recording `has_eof`), and a successful run's
output contains at most one bare-sentinel chunk, which, when present, is
the trailing `"# End of file"` (emitted without a newline) — even when
the input holds several sentinel-prefixed lines, anywhere. -/
theorem C10_sentinel_consumed_once (p : Params) :
    (∀ (st : St) (l : Str), sentinelS.isPrefixOf l = true →
      processLine p st l = .ok ({ st with has_eof := true }, [])) ∧
    (∀ (lines : List Str) (ch : Bool) (chunks : List Str) (m : Str),
      runMain p lines = .ok (ch, chunks, m) →
      chunks.count sentinelS ≤ 1 ∧
      (sentinelS ∈ chunks → chunks.getLast? = some sentinelS)) := by
  constructor
  · intro st l hpre
    simp [processLine, hpre]
  · intro lines ch chunks m h
    obtain ⟨body, hbody, hchunks⟩ := runMain_ok_body p lines ch chunks m h
    have hb0 : body.count sentinelS = 0 :=
      List.count_eq_zero.mpr fun hmem => hbody _ hmem rfl
    cases hany : lines.any fun l => sentinelS.isPrefixOf l with
    | false =>
      rw [hany] at hchunks
      simp only [if_neg Bool.false_ne_true, List.append_nil] at hchunks
      subst hchunks
      constructor
      · simp [hb0]
      · intro hmem
        exact absurd rfl (hbody _ hmem)
    | true =>
      rw [hany] at hchunks
      simp only [if_pos rfl] at hchunks
      subst hchunks
      constructor
      · rw [List.count_append, hb0]
        simp
      · intro _
        simp [List.getLast?_concat]

/-- Witness for C10: two sentinel-prefixed lines, one of them first and
one with trailing text; both are consumed and exactly one trailing bare
sentinel is emitted. -/
theorem C10_witness :
    (processLine ⟨"joe".toList, "soft".toList, "nofile".toList, 5, false, false, []⟩
        ⟨false, false, false, 5, [], []⟩ "# End of file junk\n".toList =
      .ok (⟨false, true, false, 5, [], []⟩, [])) ∧
    ((["bob soft core 1\n".toList, "joe\tsoft\tnofile\t5\n".toList,
       sentinelS] : List Str).count sentinelS ≤ 1 ∧
     (sentinelS ∈ (["bob soft core 1\n".toList, "joe\tsoft\tnofile\t5\n".toList,
       sentinelS] : List Str) →
      (["bob soft core 1\n".toList, "joe\tsoft\tnofile\t5\n".toList,
        sentinelS] : List Str).getLast? = some sentinelS)) :=
  ⟨(C10_sentinel_consumed_once
      ⟨"joe".toList, "soft".toList, "nofile".toList, 5, false, false, []⟩).1
      ⟨false, false, false, 5, [], []⟩ "# End of file junk\n".toList (by decide),
   (C10_sentinel_consumed_once
      ⟨"joe".toList, "soft".toList, "nofile".toList, 5, false, false, []⟩).2
      (pyLines "# End of file\nbob soft core 1\n# End of file junk\n".toList)
      true
      ["bob soft core 1\n".toList, "joe\tsoft\tnofile\t5\n".toList, sentinelS]
      "joe\tsoft\tnofile\t5\n".toList rfl⟩

end PamLimits

namespace PamLimits

/-! ### Decimal round trip: `int(str(v)) = v` -/

/-- A decimal digit character's code, for digits below 10. -/
theorem digitChar_toNat (d : Nat) (h : d < 10) :
    (Nat.digitChar d).toNat = 48 + d := by
  interval_cases d <;> rfl

/-- `Nat.digitChar` of a digit below 10 is a digit character. -/
theorem digitChar_isDigit (d : Nat) (h : d < 10) :
    (Nat.digitChar d).isDigit = true := by
  interval_cases d <;> decide

/-- `Nat.digitChar` of a digit below 10 is not whitespace, not a sign,
not a hash. -/
theorem digitChar_plain (d : Nat) (h : d < 10) :
    pyIsSpace (Nat.digitChar d) = false ∧ Nat.digitChar d ≠ '-' ∧
    Nat.digitChar d ≠ '+' ∧ Nat.digitChar d ≠ '#' := by
  interval_cases d <;> refine ⟨by decide, by decide, by decide, by decide⟩

/-- Evaluating the digit string produced by `toDigitsRev` recovers the
number (with an arbitrary accumulator). -/
theorem foldl_toDigitsRev (f : Nat) : ∀ (n A : Nat), n ≤ f →
    List.foldl (fun a c => 10 * a + (c.toNat - 48)) A
      (((toDigitsRev f n).reverse).map Nat.digitChar) =
    A * 10 ^ (toDigitsRev f n).length + n := by
  induction f with
  | zero =>
    intro n A h
    have : n = 0 := Nat.le_zero.mp h
    subst this
    simp [toDigitsRev]
  | succ f ih =>
    intro n A h
    by_cases hn : n = 0
    · subst hn
      simp [toDigitsRev]
    · have hrec : toDigitsRev (f + 1) n = n % 10 :: toDigitsRev f (n / 10) := by
        simp [toDigitsRev, hn]
      have hle : n / 10 ≤ f := by
        have hlt : n / 10 < n := Nat.div_lt_self (Nat.pos_of_ne_zero hn) (by norm_num)
        omega
      have hd : n % 10 < 10 := Nat.mod_lt _ (by norm_num)
      rw [hrec]
      simp only [List.reverse_cons, List.map_append, List.map_cons, List.map_nil,
        List.foldl_append, List.foldl_cons, List.foldl_nil, List.length_cons]
      rw [ih (n / 10) A hle, digitChar_toNat _ hd]
      have h48 : 48 + n % 10 - 48 = n % 10 := by omega
      rw [h48, pow_succ]
      have := Nat.div_add_mod n 10
      ring_nf
      omega

/-- All digits produced by `toDigitsRev` are below 10. -/
theorem toDigitsRev_lt (f : Nat) : ∀ n d, d ∈ toDigitsRev f n → d < 10 := by
  induction f with
  | zero => intro n d h; simp [toDigitsRev] at h
  | succ f ih =>
    intro n d h
    by_cases hn : n = 0
    · simp [toDigitsRev, hn] at h
    · simp only [toDigitsRev, if_neg hn, List.mem_cons] at h
      rcases h with rfl | h
      · exact Nat.mod_lt _ (by norm_num)
      · exact ih _ _ h

/-- Every character of `pyStrNat n` is a decimal digit. -/
theorem pyStrNat_digits (n : Nat) : ∀ c ∈ pyStrNat n, c.isDigit = true := by
  intro c hc
  unfold pyStrNat at hc
  by_cases hn : n = 0
  · simp [hn] at hc
    subst hc
    decide
  · simp only [if_neg hn, List.mem_map, List.mem_reverse] at hc
    obtain ⟨d, hd, rfl⟩ := hc
    exact digitChar_isDigit d (toDigitsRev_lt n n d hd)

/-- `pyStrNat n` is never empty. -/
theorem pyStrNat_ne_nil (n : Nat) : pyStrNat n ≠ [] := by
  unfold pyStrNat
  by_cases hn : n = 0
  · simp [hn]
  · simp only [if_neg hn]
    intro hcon
    have : toDigitsRev n n = [] := by
      cases h : toDigitsRev n n with
      | nil => rfl
      | cons a as => rw [h] at hcon; simp at hcon
    cases hn2 : n with
    | zero => exact hn hn2
    | succ m => rw [hn2] at this; simp [toDigitsRev, hn2 ▸ hn] at this

/-- Evaluating `pyStrNat n` as digits recovers `n`. -/
theorem digitsVal_pyStrNat (n : Nat) : digitsVal (pyStrNat n) = n := by
  unfold pyStrNat digitsVal
  by_cases hn : n = 0
  · simp [hn]
  · simp only [if_neg hn]
    have := foldl_toDigitsRev n n 0 le_rfl
    simpa using this

end PamLimits

namespace PamLimits

/-- Digit characters are plain: not whitespace, sign, or hash. -/
theorem isDigit_plain (c : Char) (h : c.isDigit = true) :
    pyIsSpace c = false ∧ c ≠ '-' ∧ c ≠ '+' ∧ c ≠ '#' ∧ c ≠ '\n' := by
  have hge : 48 ≤ c.toNat := by
    simpa [Char.isDigit, Char.le_def] using (Bool.and_eq_true ..).mp h |>.1
  have hle : c.toNat ≤ 57 := by
    simpa [Char.isDigit, Char.le_def] using (Bool.and_eq_true ..).mp h |>.2
  refine ⟨?_, ?_, ?_, ?_, ?_⟩
  · simp only [pyIsSpace, Bool.or_eq_false_iff]
    refine ⟨⟨⟨⟨⟨?_, ?_⟩, ?_⟩, ?_⟩, ?_⟩, ?_⟩ <;>
      (simp only [decide_eq_false_iff_not]; intro hc; subst hc; simp_all)
  all_goals intro hc; subst hc; simp_all

/-- Strings of plain characters are untouched by `strip()`. -/
theorem stripWS_of_plain (l : Str) (h : ∀ c ∈ l, pyIsSpace c = false) :
    stripWS l = l := by
  have h1 : lstripWS l = l := by
    unfold lstripWS
    cases l with
    | nil => rfl
    | cons c cs => simp [List.dropWhile_cons, h c (List.mem_cons_self ..)]
  have h2 : rstripWS l = l := by
    unfold rstripWS
    have : l.reverse.dropWhile pyIsSpace = l.reverse := by
      cases hr : l.reverse with
      | nil => rfl
      | cons c cs =>
        have hc : c ∈ l := by
          rw [← List.mem_reverse, hr]
          exact List.mem_cons_self ..
        simp [List.dropWhile_cons, h c hc]
    rw [this, List.reverse_reverse]
  unfold stripWS
  rw [h1, h2]

/-- Every character of `pyStr v` is a digit or a leading minus. -/
theorem pyStr_chars (v : Int) :
    ∀ c ∈ pyStr v, c.isDigit = true ∨ c = '-' := by
  intro c hc
  unfold pyStr at hc
  by_cases hv : v < 0
  · rw [if_pos hv] at hc
    rcases List.mem_cons.mp hc with rfl | h2
    · right; rfl
    · left; exact pyStrNat_digits _ c h2
  · rw [if_neg hv] at hc
    left; exact pyStrNat_digits _ c hc

/-- `pyStr v` contains no whitespace, no hash, no newline. -/
theorem pyStr_plain (v : Int) :
    ∀ c ∈ pyStr v, pyIsSpace c = false ∧ c ≠ '#' ∧ c ≠ '\n' := by
  intro c hc
  rcases pyStr_chars v c hc with hd | rfl
  · obtain ⟨h1, _, _, h4, h5⟩ := isDigit_plain c hd
    exact ⟨h1, h4, h5⟩
  · exact ⟨by decide, by decide, by decide⟩

/-- `pyStr v` is never empty. -/
theorem pyStr_ne_nil (v : Int) : pyStr v ≠ [] := by
  unfold pyStr
  by_cases hv : v < 0
  · simp [hv]
  · simp only [if_neg hv]
    exact pyStrNat_ne_nil _

/-- `int()` on a plain all-digit string evaluates the digits. -/
theorem pyInt_all_digits (c : Char) (rest : Str)
    (hdig : (c :: rest).all Char.isDigit = true) :
    pyInt? (c :: rest) = some (digitsVal (c :: rest) : Int) := by
  have hcd : c.isDigit = true := by
    have := List.all_eq_true.mp hdig c (List.mem_cons_self ..)
    simpa using this
  obtain ⟨hws, hm, hp, _, _⟩ := isDigit_plain c hcd
  have hplain : ∀ x ∈ c :: rest, pyIsSpace x = false := by
    intro x hx
    have hxd : x.isDigit = true := by
      have := List.all_eq_true.mp hdig x hx
      simpa using this
    exact (isDigit_plain x hxd).1
  unfold pyInt?
  rw [stripWS_of_plain _ hplain]
  simp only [if_neg hm, if_neg hp, ne_eq, reduceCtorEq, not_false_eq_true,
    List.all_cons, true_and]
  have hdig2 : (c.isDigit && List.all rest Char.isDigit) = true := by
    simpa using hdig
  rw [if_pos hdig2]
  simp

/-- `int()` on a minus sign followed by digits negates the digits. -/
theorem pyInt_neg_digits (r : Str) (hne : r ≠ [])
    (hdig : r.all Char.isDigit = true) :
    pyInt? ('-' :: r) = some (-(digitsVal r : Int)) := by
  have hplain : ∀ x ∈ '-' :: r, pyIsSpace x = false := by
    intro x hx
    rcases List.mem_cons.mp hx with rfl | hx2
    · decide
    · have hxd : x.isDigit = true := by
        have := List.all_eq_true.mp hdig x hx2
        simpa using this
      exact (isDigit_plain x hxd).1
  unfold pyInt?
  rw [stripWS_of_plain _ hplain]
  simp [hne, hdig]

/-- Parsing `str(v)` with `int()` gives back `v` (the decimal round
trip the second application of the reconciler depends on). -/
theorem pyInt_pyStr (v : Int) : pyInt? (pyStr v) = some v := by
  have hdig : (pyStrNat v.natAbs).all Char.isDigit = true :=
    List.all_eq_true.mpr (pyStrNat_digits _)
  by_cases hv : v < 0
  · have hs : pyStr v = '-' :: pyStrNat v.natAbs := by
      unfold pyStr; rw [if_pos hv]
    rw [hs, pyInt_neg_digits _ (pyStrNat_ne_nil _) hdig, digitsVal_pyStrNat]
    congr 1
    have := Int.ofNat_natAbs_of_nonpos (le_of_lt hv)
    omega
  · have hs : pyStr v = pyStrNat v.natAbs := by
      unfold pyStr; rw [if_neg hv]
    rcases hcons : pyStrNat v.natAbs with _ | ⟨c, rest⟩
    · exact absurd hcons (pyStrNat_ne_nil _)
    · rw [hs, hcons, pyInt_all_digits c rest (hcons ▸ hdig)]
      rw [← hcons, digitsVal_pyStrNat]
      congr 1
      omega

end PamLimits

namespace PamLimits

/-! ### Physical-line splitting lemmas -/

/-- Unfolding: a newline heads its own line. -/
theorem pyLines_cons_nl (cs : Str) : pyLines ('\n' :: cs) = ['\n'] :: pyLines cs := by
  simp [pyLines]

/-- Unfolding: a non-newline character joins the next line. -/
theorem pyLines_cons (x : Char) (cs : Str) (hx : x ≠ '\n') :
    pyLines (x :: cs) =
      (match pyLines cs with
       | [] => [[x]]
       | f :: r => (x :: f) :: r) := by
  simp [pyLines, hx]

/-- `pyLines` of a non-empty string is non-empty. -/
theorem pyLines_ne_nil (l : Str) (h : l ≠ []) : pyLines l ≠ [] := by
  cases l with
  | nil => exact absurd rfl h
  | cons x cs =>
    by_cases hx : x = '\n'
    · subst hx; rw [pyLines_cons_nl]; simp
    · rw [pyLines_cons x cs hx]
      cases pyLines cs <;> simp

/-- Rejoining the physical lines gives back the content. -/
theorem flatten_pyLines (l : Str) : (pyLines l).flatten = l := by
  induction l with
  | nil => rfl
  | cons x cs ih =>
    by_cases hx : x = '\n'
    · subst hx; rw [pyLines_cons_nl]; simp [ih]
    · rw [pyLines_cons x cs hx]
      cases hp : pyLines cs with
      | nil =>
        have : cs = [] := by
          by_contra hcs
          exact pyLines_ne_nil cs hcs hp
        simp [this]
      | cons f r =>
        have h2 : (f :: r).flatten = cs := by rw [← hp]; exact ih
        simp only [List.flatten_cons] at h2 ⊢
        simp [← h2]

/-- `pyLines` distributes over append at a newline boundary. -/
theorem pyLines_append (a : Str) : ∀ b, a.getLast? = some '\n' →
    pyLines (a ++ b) = pyLines a ++ pyLines b := by
  induction a with
  | nil => intro b h; cases h
  | cons x cs ih =>
    intro b h
    cases cs with
    | nil =>
      have hx : x = '\n' := by simpa using h
      subst hx
      rw [List.cons_append, pyLines_cons_nl, pyLines_cons_nl]
      simp [pyLines]
    | cons y cs2 =>
      have htail : (y :: cs2).getLast? = some '\n' := by
        rwa [List.getLast?_cons_cons] at h
      have ihb := ih b htail
      by_cases hx : x = '\n'
      · subst hx
        rw [List.cons_append, pyLines_cons_nl, pyLines_cons_nl, ihb, List.cons_append]
      · rw [List.cons_append, pyLines_cons x _ hx, pyLines_cons x _ hx, ihb]
        cases hp : pyLines (y :: cs2) with
        | nil => exact absurd hp (pyLines_ne_nil _ (by simp))
        | cons f r => simp

/-- A non-empty newline-free string is a single line. -/
theorem pyLines_no_nl (a : Str) (h1 : a ≠ []) (h2 : '\n' ∉ a) :
    pyLines a = [a] := by
  induction a with
  | nil => exact absurd rfl h1
  | cons x cs ih =>
    have hx : x ≠ '\n' := fun hc => h2 (hc ▸ List.mem_cons_self ..)
    rw [pyLines_cons x cs hx]
    cases hcs : cs with
    | nil => subst hcs; simp [pyLines]
    | cons y cs2 =>
      subst hcs
      rw [ih (by simp) (fun hm => h2 (List.mem_cons_of_mem _ hm))]

/-- A newline-terminated newline-free body is a single line. -/
theorem pyLines_line (w : Str) (h : '\n' ∉ w) :
    pyLines (w ++ ['\n']) = [w ++ ['\n']] := by
  induction w with
  | nil => simp [pyLines]
  | cons x cs ih =>
    have hx : x ≠ '\n' := fun hc => h (hc ▸ List.mem_cons_self ..)
    rw [List.cons_append, pyLines_cons x _ hx,
      ih (fun hm => h (List.mem_cons_of_mem _ hm))]

/-- A well-formed physical line: newline-terminated, no inner newline. -/
def WfNL (l : Str) : Prop := ∃ w, l = w ++ ['\n'] ∧ '\n' ∉ w

/-- All lines of a newline-terminated content are well formed. -/
theorem pyLines_wf (a : Str) : a.getLast? = some '\n' →
    ∀ l ∈ pyLines a, WfNL l := by
  induction a with
  | nil => intro h; cases h
  | cons x cs ih =>
    intro h l hl
    cases hcs : cs with
    | nil =>
      have hx : x = '\n' := by simpa [hcs] using h
      subst hx
      subst hcs
      rw [pyLines_cons_nl] at hl
      simp only [pyLines, List.mem_singleton] at hl
      subst hl
      exact ⟨[], rfl, by simp⟩
    | cons y cs2 =>
      subst hcs
      have htail : (y :: cs2).getLast? = some '\n' := by
        rwa [List.getLast?_cons_cons] at h
      by_cases hx : x = '\n'
      · subst hx
        rw [pyLines_cons_nl] at hl
        rcases List.mem_cons.mp hl with rfl | hl2
        · exact ⟨[], rfl, by simp⟩
        · exact ih htail l hl2
      · rw [pyLines_cons x _ hx] at hl
        cases hp : pyLines (y :: cs2) with
        | nil => exact absurd hp (pyLines_ne_nil _ (by simp))
        | cons f r =>
          rw [hp] at hl
          rcases List.mem_cons.mp hl with rfl | hl2
          · have hf : WfNL f := ih htail f (by rw [hp]; exact List.mem_cons_self ..)
            obtain ⟨w, rfl, hw⟩ := hf
            refine ⟨x :: w, by simp, ?_⟩
            simp only [List.mem_cons, not_or]
            exact ⟨fun hh => hx hh.symm, hw⟩
          · exact ih htail l (by rw [hp]; exact List.mem_cons_of_mem _ hl2)

/-- `pyLines` of a concatenation of newline-terminated chunks is the
concatenation of each chunk's lines. -/
theorem pyLines_flatten (cs : List Str) :
    (∀ c ∈ cs, c.getLast? = some '\n') →
    pyLines cs.flatten = (cs.map pyLines).flatten := by
  induction cs with
  | nil => intro _; rfl
  | cons c rest ih =>
    intro h
    rw [List.flatten_cons, pyLines_append c rest.flatten (h c (List.mem_cons_self ..)),
      List.map_cons, List.flatten_cons,
      ih (fun x hx => h x (List.mem_cons_of_mem _ hx))]

end PamLimits

namespace PamLimits

/-! ### Normalization of constructed record lines -/

/-- `collapse` passes a plain (non-whitespace) character through. -/
theorem collapse_cons_plain (c : Char) (l : Str) (hc : pyIsSpace c = false) :
    collapse (c :: l) = c :: collapse l := by
  cases l <;> simp [collapse, hc]

/-- `collapse` passes a plain prefix through. -/
theorem collapse_append_plain (tok : Str) : ∀ rest,
    (∀ c ∈ tok, pyIsSpace c = false) →
    collapse (tok ++ rest) = tok ++ collapse rest := by
  induction tok with
  | nil => intro rest _; rfl
  | cons c tok ih =>
    intro rest h
    rw [List.cons_append, collapse_cons_plain c _ (h c (List.mem_cons_self ..)),
      ih rest (fun x hx => h x (List.mem_cons_of_mem _ hx))]
    rfl

/-- `collapse` turns one whitespace character before a plain character
into a single space. -/
theorem collapse_ws_cons (c x : Char) (xs : Str) (hc : pyIsSpace c = true)
    (hx : pyIsSpace x = false) :
    collapse (c :: x :: xs) = ' ' :: collapse (x :: xs) := by
  simp [collapse, hc, hx]

/-- `lstrip` keeps a string with a plain head. -/
theorem lstripWS_cons_plain (c : Char) (l : Str) (hc : pyIsSpace c = false) :
    lstripWS (c :: l) = c :: l := by
  simp [lstripWS, List.dropWhile_cons, hc]

/-- `rstrip` strips nothing past a plain character. -/
theorem rstripWS_append (a Z : Str) (c : Char) (hc : pyIsSpace c = false) :
    rstripWS (a ++ c :: Z) = a ++ c :: rstripWS Z := by
  unfold rstripWS
  rw [List.reverse_append, List.reverse_cons, List.append_assoc,
    List.singleton_append, List.dropWhile_append]
  by_cases he : (Z.reverse.dropWhile pyIsSpace).isEmpty = true
  · rw [if_pos he]
    have hz : Z.reverse.dropWhile pyIsSpace = [] := by
      simpa [List.isEmpty_iff] using he
    rw [List.dropWhile_cons, hc]
    simp [hz]
  · rw [if_neg he]
    simp

/-- `rstrip` absorbs a trailing space. -/
theorem rstripWS_concat_ws (a : Str) : rstripWS (a ++ [' ']) = rstripWS a := by
  unfold rstripWS
  rw [List.reverse_append]
  have hsp : pyIsSpace ' ' = true := rfl
  simp only [List.reverse_cons, List.reverse_nil, List.nil_append,
    List.singleton_append, List.dropWhile_cons, hsp, if_true]

/-- `rstrip` keeps a string ending in a plain character. -/
theorem rstripWS_concat_plain (a : Str) (c : Char) (hc : pyIsSpace c = false) :
    rstripWS (a ++ [c]) = a ++ [c] := by
  have := rstripWS_append a [] c hc
  simpa [rstripWS] using this

/-- `takeWhile` passes a satisfying prefix and stops at a failure. -/
theorem takeWhile_stop (p : Char → Bool) (a : Str) : ∀ (Z : Str) (c0 : Char),
    p c0 = false → (∀ c ∈ a, p c = true) →
    List.takeWhile p (a ++ c0 :: Z) = a := by
  induction a with
  | nil =>
    intro Z c0 h0 _
    rw [List.nil_append, List.takeWhile_cons]
    simp [h0]
  | cons c a ih =>
    intro Z c0 h0 h
    rw [List.cons_append, List.takeWhile_cons]
    simp only [h c (List.mem_cons_self ..), if_true]
    rw [ih Z c0 h0 (fun x hx => h x (List.mem_cons_of_mem _ hx))]

/-- `takeWhile` keeps an all-satisfying string whole. -/
theorem takeWhile_all (p : Char → Bool) (a : Str)
    (h : ∀ c ∈ a, p c = true) : List.takeWhile p a = a := by
  induction a with
  | nil => rfl
  | cons c a ih =>
    rw [List.takeWhile_cons]
    simp only [h c (List.mem_cons_self ..), if_true]
    rw [ih (fun x hx => h x (List.mem_cons_of_mem _ hx))]

/-- `splitSp` never returns the empty list. -/
theorem splitSp_ne_nil (l : Str) : splitSp l ≠ [] := by
  cases l with
  | nil => simp [splitSp]
  | cons c cs =>
    unfold splitSp
    cases splitSp cs with
    | nil => simp
    | cons f r => by_cases hc : c = ' ' <;> simp [hc]

/-- Unfolding: `splitSp` on a space starts a new piece. -/
theorem splitSp_cons_space (cs : Str) : splitSp (' ' :: cs) = [] :: splitSp cs := by
  conv_lhs => unfold splitSp
  cases hr : splitSp cs with
  | nil => exact absurd hr (splitSp_ne_nil cs)
  | cons f r => simp

/-- Unfolding: `splitSp` on a plain character extends the first piece. -/
theorem splitSp_cons_plain (c : Char) (cs : Str) (hc : c ≠ ' ') :
    splitSp (c :: cs) =
      (match splitSp cs with
       | [] => [[]]
       | f :: r => (c :: f) :: r) := by
  conv_lhs => unfold splitSp
  cases splitSp cs with
  | nil => rfl
  | cons f r => simp [hc]

/-- `splitSp` cuts a space-free token at the following space. -/
theorem splitSp_token (tok : Str) : ∀ rest, ' ' ∉ tok →
    splitSp (tok ++ ' ' :: rest) = tok :: splitSp rest := by
  induction tok with
  | nil =>
    intro rest _
    rw [List.nil_append, splitSp_cons_space]
  | cons c tok ih =>
    intro rest h
    have hc : c ≠ ' ' := fun hcc => h (hcc ▸ List.mem_cons_self ..)
    rw [List.cons_append, splitSp_cons_plain c _ hc,
      ih rest (fun hm => h (List.mem_cons_of_mem _ hm))]

/-- `splitSp` keeps a space-free token whole. -/
theorem splitSp_whole (tok : Str) (h : ' ' ∉ tok) (hne : tok ≠ []) :
    splitSp tok = [tok] := by
  induction tok with
  | nil => exact absurd rfl hne
  | cons c tok ih =>
    have hc : c ≠ ' ' := fun hcc => h (hcc ▸ List.mem_cons_self ..)
    rw [splitSp_cons_plain c _ hc]
    cases htok : tok with
    | nil => simp [splitSp]
    | cons y ys =>
      rw [← htok, ih (fun hm => h (List.mem_cons_of_mem _ hm)) (by simp [htok])]

end PamLimits

namespace PamLimits

/-- A plain token: non-empty, no whitespace, no hash. -/
def PlainTok (s : Str) : Prop :=
  s ≠ [] ∧ (∀ c ∈ s, pyIsSpace c = false) ∧ '#' ∉ s

/-- All valid `limit_type` choices are plain tokens. -/
theorem pamTypes_plain : ∀ t ∈ pamTypes, PlainTok t := by
  intro t ht
  fin_cases ht <;> exact ⟨by decide, by decide, by decide⟩

/-- All valid `limit_item` choices are plain tokens. -/
theorem pamItems_plain : ∀ t ∈ pamItems, PlainTok t := by
  intro t ht
  fin_cases ht <;> exact ⟨by decide, by decide, by decide⟩

/-- `str()` of an integer is a plain token. -/
theorem pyStr_plainTok (v : Int) : PlainTok (pyStr v) :=
  ⟨pyStr_ne_nil v, fun c hc => (pyStr_plain v c hc).1,
   fun hc => (pyStr_plain v '#' hc).2.1 rfl⟩

/-- `collapse` of a tab before a plain token spells one space. -/
theorem collapse_tab_token (tok rest : Str) (htok : tok ≠ [])
    (hw : ∀ c ∈ tok, pyIsSpace c = false) :
    collapse ('\t' :: (tok ++ rest)) = ' ' :: (tok ++ collapse rest) := by
  cases tok with
  | nil => exact absurd rfl htok
  | cons h t =>
    rw [List.cons_append,
      collapse_ws_cons '\t' h _ rfl (hw h (List.mem_cons_self ..)),
      ← List.cons_append, collapse_append_plain (h :: t) rest hw]

/-- The whitespace-collapsed form of a rewritten record line. -/
theorem collapse_newLimit (p : Params) (v : Int) (nc : Str)
    (hd : PlainTok p.domain) (ht : PlainTok p.limit_type)
    (hi : PlainTok p.limit_item) :
    collapse (newLimitLine p v nc) =
      p.domain ++ ' ' :: (p.limit_type ++ ' ' :: (p.limit_item ++ ' ' ::
        (pyStr v ++ collapse (nc ++ ['\n'])))) := by
  have hassoc : newLimitLine p v nc =
      p.domain ++ ('\t' :: (p.limit_type ++ ('\t' :: (p.limit_item ++
        ('\t' :: (pyStr v ++ (nc ++ ['\n']))))))) := by
    unfold newLimitLine
    simp [List.append_assoc]
  rw [hassoc]
  rw [collapse_append_plain p.domain _ hd.2.1]
  congr 1
  rw [collapse_tab_token p.limit_type _ ht.1 ht.2.1]
  congr 2
  rw [collapse_tab_token p.limit_item _ hi.1 hi.2.1]
  congr 2
  rw [collapse_tab_token (pyStr v) _ (pyStr_ne_nil v) (fun c hc => (pyStr_plain v c hc).1)]

/-- The (space-joined) record head of a rewritten line. -/
def recFront (p : Params) (v : Int) : Str :=
  p.domain ++ ' ' :: (p.limit_type ++ ' ' :: (p.limit_item ++ ' ' :: pyStr v))

/-- `recFront` contains no hash. -/
theorem recFront_no_hash (p : Params) (v : Int)
    (hd : PlainTok p.domain) (ht : PlainTok p.limit_type)
    (hi : PlainTok p.limit_item) : ∀ c ∈ recFront p v, c ≠ '#' := by
  intro c hc
  unfold recFront at hc
  simp only [List.mem_append, List.mem_cons] at hc
  rcases hc with h | rfl | h | rfl | h | rfl | h
  · exact fun he => hd.2.2 (he ▸ h)
  · decide
  · exact fun he => ht.2.2 (he ▸ h)
  · decide
  · exact fun he => hi.2.2 (he ▸ h)
  · decide
  · exact fun he => (pyStr_plain v c h).2.1 he

/-- `rstrip` keeps `recFront` whole (it ends in a digit). -/
theorem rstripWS_recFront (p : Params) (v : Int) :
    rstripWS (recFront p v) = recFront p v := by
  have hne := pyStr_ne_nil v
  have hdecomp : pyStr v = (pyStr v).dropLast ++ [(pyStr v).getLast hne] :=
    (List.dropLast_append_getLast hne).symm
  have hlastmem : (pyStr v).getLast hne ∈ pyStr v := List.getLast_mem hne
  have hlast : pyIsSpace ((pyStr v).getLast hne) = false :=
    (pyStr_plain v _ hlastmem).1
  have heq : recFront p v =
      (p.domain ++ ' ' :: (p.limit_type ++ ' ' :: (p.limit_item ++ ' ' ::
        (pyStr v).dropLast))) ++ [(pyStr v).getLast hne] := by
    unfold recFront
    conv_lhs => rw [hdecomp]
    simp [List.append_assoc]
  rw [heq, rstripWS_concat_plain _ _ hlast]

/-- The record body of a rewritten line is its space-joined head,
whatever the appended comment (empty, or `"\t#"`-wrapped). -/
theorem recBody_newLimit (p : Params) (v : Int) (nc : Str)
    (hd : PlainTok p.domain) (ht : PlainTok p.limit_type)
    (hi : PlainTok p.limit_item)
    (hshape : nc = [] ∨ ∃ r, nc = '\t' :: '#' :: r) :
    recBody (newLimitLine p v nc) = recFront p v ∧
    normLine (newLimitLine p v nc) ≠ [] := by
  obtain ⟨dh, dt, hdc⟩ : ∃ dh dt, p.domain = dh :: dt := by
    cases hx : p.domain with
    | nil => exact absurd hx hd.1
    | cons a b => exact ⟨a, b, rfl⟩
  have hdh : pyIsSpace dh = false := hd.2.1 dh (by rw [hdc]; exact List.mem_cons_self ..)
  have hfrontnh := recFront_no_hash p v hd ht hi
  rcases hshape with rfl | ⟨r, rfl⟩
  · have hcoll : collapse (newLimitLine p v []) = recFront p v ++ [' '] := by
      rw [collapse_newLimit p v [] hd ht hi]
      have h1 : collapse ([] ++ ['\n']) = [' '] := by decide
      rw [h1]
      unfold recFront
      simp [List.append_assoc]
    have hnorm : normLine (newLimitLine p v []) = recFront p v := by
      unfold normLine stripWS
      rw [hcoll]
      rw [show recFront p v ++ [' '] = dh :: (dt ++ ' ' :: (p.limit_type ++ ' ' ::
        (p.limit_item ++ ' ' :: pyStr v)) ++ [' ']) from by
        unfold recFront; rw [hdc]; simp]
      rw [lstripWS_cons_plain dh _ hdh]
      rw [show dh :: (dt ++ ' ' :: (p.limit_type ++ ' ' ::
        (p.limit_item ++ ' ' :: pyStr v)) ++ [' ']) = recFront p v ++ [' '] from by
        unfold recFront; rw [hdc]; simp]
      rw [rstripWS_concat_ws, rstripWS_recFront]
    constructor
    · unfold recBody
      rw [hnorm, takeWhile_all _ _ (fun c hc => by
        simp [hfrontnh c hc]), rstripWS_recFront]
    · rw [hnorm]
      unfold recFront
      rw [hdc]
      simp
  · have hcoll : collapse (newLimitLine p v ('\t' :: '#' :: r)) =
        recFront p v ++ ' ' :: '#' :: collapse (r ++ ['\n']) := by
      rw [collapse_newLimit p v _ hd ht hi]
      rw [show ('\t' :: '#' :: r) ++ ['\n'] = '\t' :: '#' :: (r ++ ['\n']) from by simp]
      rw [collapse_ws_cons '\t' '#' _ rfl rfl, collapse_cons_plain '#' _ rfl]
      unfold recFront
      simp [List.append_assoc]
    have hnorm : normLine (newLimitLine p v ('\t' :: '#' :: r)) =
        recFront p v ++ ' ' :: '#' :: rstripWS (collapse (r ++ ['\n'])) := by
      unfold normLine stripWS
      rw [hcoll]
      rw [show recFront p v ++ ' ' :: '#' :: collapse (r ++ ['\n']) =
        dh :: ((dt ++ ' ' :: (p.limit_type ++ ' ' :: (p.limit_item ++ ' ' ::
          pyStr v)) ++ [' ']) ++ '#' :: collapse (r ++ ['\n'])) from by
        unfold recFront; rw [hdc]; simp]
      rw [lstripWS_cons_plain dh _ hdh]
      rw [show dh :: ((dt ++ ' ' :: (p.limit_type ++ ' ' :: (p.limit_item ++ ' ' ::
          pyStr v)) ++ [' ']) ++ '#' :: collapse (r ++ ['\n'])) =
        (recFront p v ++ [' ']) ++ '#' :: collapse (r ++ ['\n']) from by
        unfold recFront; rw [hdc]; simp]
      rw [rstripWS_append _ _ '#' rfl]
      simp
    constructor
    · unfold recBody
      rw [hnorm]
      rw [show recFront p v ++ ' ' :: '#' :: rstripWS (collapse (r ++ ['\n'])) =
        (recFront p v ++ [' ']) ++ '#' :: rstripWS (collapse (r ++ ['\n'])) from by simp]
      rw [takeWhile_stop _ _ _ '#' (by simp) (fun c hc => by
        rcases List.mem_append.mp hc with h | h
        · simp [hfrontnh c h]
        · rcases List.mem_singleton.mp h with rfl
          decide)]
      rw [rstripWS_concat_ws, rstripWS_recFront]
    · rw [hnorm]
      unfold recFront
      rw [hdc]
      simp

/-- The parsed fields of a rewritten record line. -/
theorem lineFields_newLimit (p : Params) (v : Int) (nc : Str)
    (hd : PlainTok p.domain) (ht : PlainTok p.limit_type)
    (hi : PlainTok p.limit_item)
    (hshape : nc = [] ∨ ∃ r, nc = '\t' :: '#' :: r) :
    lineFields (newLimitLine p v nc) =
      [p.domain, p.limit_type, p.limit_item, pyStr v] := by
  unfold lineFields
  rw [(recBody_newLimit p v nc hd ht hi hshape).1]
  unfold recFront
  have hds : ' ' ∉ p.domain := fun hm => absurd (hd.2.1 ' ' hm) (by decide)
  have hts : ' ' ∉ p.limit_type := fun hm => absurd (ht.2.1 ' ' hm) (by decide)
  have his : ' ' ∉ p.limit_item := fun hm => absurd (hi.2.1 ' ' hm) (by decide)
  have hvs : ' ' ∉ pyStr v := fun hm => absurd ((pyStr_plain v ' ' hm).1) (by decide)
  rw [splitSp_token _ _ hds, splitSp_token _ _ hts, splitSp_token _ _ his,
    splitSp_whole _ hvs (pyStr_ne_nil v)]

end PamLimits

namespace PamLimits

/-- A list starting with a non-hash character has no `"#"` prefix. -/
theorem hash_prefix_false (x : Char) (xs : Str) (h : x ≠ '#') :
    List.isPrefixOf ['#'] (x :: xs) = false := by
  simp only [List.isPrefixOf, Bool.and_eq_false_iff]
  left
  exact beq_eq_false_iff_ne.mpr (Ne.symm h)

/-- A list starting with a non-hash character is not sentinel-prefixed. -/
theorem sentinel_prefix_false (x : Char) (xs : Str) (h : x ≠ '#') :
    sentinelS.isPrefixOf (x :: xs) = false := by
  have hs : sentinelS = '#' :: " End of file".toList := by decide
  rw [hs]
  simp only [List.isPrefixOf, Bool.and_eq_false_iff]
  left
  exact beq_eq_false_iff_ne.mpr (Ne.symm h)

/-- A rewritten record line, decomposed at its head character. -/
theorem newLimit_head (p : Params) (v : Int) (nc : Str)
    (hd : PlainTok p.domain) :
    ∃ dh dt, newLimitLine p v nc = dh :: dt ∧ dh ≠ '#' ∧
      sentinelS.isPrefixOf (newLimitLine p v nc) = false ∧
      List.isPrefixOf ['#'] (newLimitLine p v nc) = false := by
  obtain ⟨dh, dtl, hdc⟩ : ∃ dh dtl, p.domain = dh :: dtl := by
    cases hx : p.domain with
    | nil => exact absurd hx hd.1
    | cons a b => exact ⟨a, b, rfl⟩
  have hdh : dh ≠ '#' := fun he => hd.2.2 (he ▸ (hdc ▸ List.mem_cons_self ..))
  have hline : newLimitLine p v nc = dh :: (dtl ++ '\t' :: p.limit_type ++
      '\t' :: p.limit_item ++ '\t' :: (pyStr v ++ nc ++ ['\n'])) := by
    unfold newLimitLine
    rw [hdc]
    simp
  exact ⟨dh, _, hline, hdh,
    by rw [hline]; exact sentinel_prefix_false dh _ hdh,
    by rw [hline]; exact hash_prefix_false dh _ hdh⟩

/-- A rewritten record line with a newline-free comment is one physical
line. -/
theorem pyLines_newLimit_clean (p : Params) (v : Int) (nc : Str)
    (hd : PlainTok p.domain) (ht : PlainTok p.limit_type)
    (hi : PlainTok p.limit_item) (hnc : '\n' ∉ nc) :
    pyLines (newLimitLine p v nc) = [newLimitLine p v nc] := by
  have hw : newLimitLine p v nc =
      (p.domain ++ '\t' :: p.limit_type ++ '\t' :: p.limit_item ++
        '\t' :: (pyStr v ++ nc)) ++ ['\n'] := by
    unfold newLimitLine
    simp [List.append_assoc]
  have hnl : '\n' ∉ (p.domain ++ '\t' :: p.limit_type ++ '\t' :: p.limit_item ++
      '\t' :: (pyStr v ++ nc)) := by
    intro hmem
    simp only [List.mem_append, List.mem_cons] at hmem
    rcases hmem with ((h | h | h) | h | h) | h | h | h <;>
      first
        | exact absurd (hd.2.1 _ h) (by decide)
        | exact absurd (ht.2.1 _ h) (by decide)
        | exact absurd (hi.2.1 _ h) (by decide)
        | exact absurd h (by decide)
        | exact (pyStr_plain v _ h).2.2 rfl
        | exact hnc h
  rw [hw, pyLines_line _ hnl]

/-- A rewritten record line whose comment ends in a newline splits into
the same record line with the newline dropped, plus a blank line. -/
theorem pyLines_newLimit_nl (p : Params) (v : Int) (nc1 : Str)
    (hd : PlainTok p.domain) (ht : PlainTok p.limit_type)
    (hi : PlainTok p.limit_item) (hnc : '\n' ∉ nc1) :
    pyLines (newLimitLine p v (nc1 ++ ['\n'])) =
      [newLimitLine p v nc1, ['\n']] := by
  have hsplit : newLimitLine p v (nc1 ++ ['\n']) =
      newLimitLine p v nc1 ++ ['\n'] := by
    unfold newLimitLine
    simp [List.append_assoc]
  rw [hsplit, pyLines_append _ _ (newLimitLine_getLast p v nc1),
    pyLines_newLimit_clean p v nc1 hd ht hi hnc]
  rfl

end PamLimits

namespace PamLimits

/-- A line is calm (for the given request) when the loop body always
re-emits it verbatim, leaves `changed` and `has_eof` untouched, and sets
`found` exactly when the line is a matching record. -/
def Calm (p : Params) (l : Str) : Prop :=
  ∀ st : St, ∃ st1, processLine p st l = .ok (st1, [l]) ∧
    st1.changed = st.changed ∧ st1.has_eof = st.has_eof ∧
    st1.found = (st.found || isMatchLine p l)

/-- A line whose fields are not a 4-list is never a match. -/
theorem isMatchLine_false_mal (p : Params) (l : Str)
    (hm : ∀ d t i v, lineFields l ≠ [d, t, i, v]) :
    isMatchLine p l = false := by
  unfold isMatchLine
  generalize hlf : lineFields l = lf
  rcases lf with _ | ⟨a1, _ | ⟨a2, _ | ⟨a3, _ | ⟨a4, _ | ⟨a5, as⟩⟩⟩⟩⟩ <;>
    simp <;> exact absurd hlf (hm a1 a2 a3 a4)

/-- A record line with a foreign key is never a match. -/
theorem isMatchLine_false_key (p : Params) (l : Str) (d t i v : Str)
    (hf : lineFields l = [d, t, i, v])
    (hk : ¬(d = p.domain ∧ t = p.limit_type ∧ i = p.limit_item)) :
    isMatchLine p l = false := by
  unfold isMatchLine
  rw [hf]
  simp only [Bool.and_eq_false_iff]
  right
  by_cases h1 : d = p.domain
  · by_cases h2 : t = p.limit_type
    · by_cases h3 : i = p.limit_item
      · exact absurd ⟨h1, h2, h3⟩ hk
      · simp [h3]
    · simp [h2]
  · simp [h1]

/-- A key-matching parseable record line is a match. -/
theorem isMatchLine_true_of (p : Params) (l : Str) (v : Str)
    (hs : sentinelS.isPrefixOf l = false)
    (hc : List.isPrefixOf ['#'] l = false)
    (hb : normLine l ≠ [])
    (hf : lineFields l = [p.domain, p.limit_type, p.limit_item, v])
    (hv : (pyInt? v).isSome = true) :
    isMatchLine p l = true := by
  unfold isMatchLine
  simp [hs, hc, hb, hf, hv]

/-- Comment lines are calm. -/
theorem calm_comment (p : Params) (l : Str)
    (hs : sentinelS.isPrefixOf l = false)
    (hc : List.isPrefixOf ['#'] l = true) : Calm p l := by
  intro st
  refine ⟨st, by simp [processLine, hs, hc], rfl, rfl, ?_⟩
  have hf : isMatchLine p l = false := by simp [isMatchLine, hc]
  simp [hf]

/-- Blank lines are calm. -/
theorem calm_blank (p : Params) (l : Str)
    (hs : sentinelS.isPrefixOf l = false)
    (hc : List.isPrefixOf ['#'] l = false)
    (hb : normLine l = []) : Calm p l := by
  intro st
  refine ⟨st, by simp [processLine, hs, hc, hb], rfl, rfl, ?_⟩
  have hf : isMatchLine p l = false := by simp [isMatchLine, hb]
  simp [hf]

/-- The loop body passes malformed lines through. -/
theorem processLine_malformed (p : Params) (st : St) (l : Str)
    (hs : sentinelS.isPrefixOf l = false)
    (hc : List.isPrefixOf ['#'] l = false)
    (hb : normLine l ≠ [])
    (hm : ∀ d t i v, lineFields l ≠ [d, t, i, v]) :
    processLine p st l = .ok (stComm st l, [l]) := by
  unfold processLine
  simp only [hs, hc, hb, Bool.false_eq_true, if_false, ite_false, if_neg hb]
  generalize hlf : lineFields l = lf
  rcases lf with _ | ⟨a1, _ | ⟨a2, _ | ⟨a3, _ | ⟨a4, _ | ⟨a5, as⟩⟩⟩⟩⟩ <;>
    first
      | (exact absurd hlf (hm a1 a2 a3 a4))
      | simp [stComm]

/-- Malformed lines are calm. -/
theorem calm_malformed (p : Params) (l : Str)
    (hs : sentinelS.isPrefixOf l = false)
    (hc : List.isPrefixOf ['#'] l = false)
    (hb : normLine l ≠ [])
    (hm : ∀ d t i v, lineFields l ≠ [d, t, i, v]) : Calm p l := by
  intro st
  refine ⟨stComm st l, processLine_malformed p st l hs hc hb hm, rfl, rfl, ?_⟩
  simp [stComm, isMatchLine_false_mal p l hm]

/-- Non-matching record lines are calm. -/
theorem calm_nonmatch (p : Params) (l : Str) (d t i v : Str) (a : Int)
    (hs : sentinelS.isPrefixOf l = false)
    (hc : List.isPrefixOf ['#'] l = false)
    (hb : normLine l ≠ [])
    (hf : lineFields l = [d, t, i, v])
    (hv : pyInt? v = some a)
    (hk : ¬(d = p.domain ∧ t = p.limit_type ∧ i = p.limit_item)) : Calm p l := by
  intro st
  refine ⟨stComm st l, by simp [processLine, stComm, hs, hc, hb, hf, hv, hk], rfl, rfl, ?_⟩
  simp [stComm, isMatchLine_false_key p l d t i v hf hk]

/-- Matching record lines whose value already equals the desired value
are calm (the exact-match short circuit). -/
theorem calm_exact (p : Params) (l : Str) (v : Str)
    (hs : sentinelS.isPrefixOf l = false)
    (hc : List.isPrefixOf ['#'] l = false)
    (hb : normLine l ≠ [])
    (hf : lineFields l = [p.domain, p.limit_type, p.limit_item, v])
    (hv : pyInt? v = some p.value) : Calm p l := by
  intro st
  refine ⟨{ stComm st l with found := true, message := l },
    by simp [processLine, stComm, hs, hc, hb, hf, hv], rfl, rfl, ?_⟩
  simp [stComm, isMatchLine_true_of p l v hs hc hb hf (by simp [hv])]

/-- Matching record lines that the `use_max` policy leaves alone are
calm. -/
theorem calm_keep_max (p : Params) (l : Str) (v : Str) (a : Int)
    (hs : sentinelS.isPrefixOf l = false)
    (hc : List.isPrefixOf ['#'] l = false)
    (hb : normLine l ≠ [])
    (hf : lineFields l = [p.domain, p.limit_type, p.limit_item, v])
    (hv : pyInt? v = some a) (hne : p.value ≠ a)
    (hmax : p.use_max = true) (hmin : p.use_min = false)
    (hstab : max p.value a = a) : Calm p l := by
  intro st
  refine ⟨{ stComm st l with found := true, new_value := a, message := l }, ?_, rfl, rfl, ?_⟩
  · simp [processLine, stComm, hs, hc, hb, hf, hv, hne, hmax, hmin, hstab]
  · simp [stComm, isMatchLine_true_of p l v hs hc hb hf (by simp [hv])]

/-- Matching record lines that the `use_min` policy leaves alone are
calm. -/
theorem calm_keep_min (p : Params) (l : Str) (v : Str) (a : Int)
    (hs : sentinelS.isPrefixOf l = false)
    (hc : List.isPrefixOf ['#'] l = false)
    (hb : normLine l ≠ [])
    (hf : lineFields l = [p.domain, p.limit_type, p.limit_item, v])
    (hv : pyInt? v = some a) (hne : p.value ≠ a)
    (hmin : p.use_min = true)
    (hstab : min p.value a = a) : Calm p l := by
  intro st
  refine ⟨{ stComm st l with found := true, new_value := a, message := l }, ?_, rfl, rfl, ?_⟩
  · simp [processLine, stComm, hs, hc, hb, hf, hv, hne, hmin, hstab]
  · simp [stComm, isMatchLine_true_of p l v hs hc hb hf (by simp [hv])]

/-- Processing a list of calm lines re-emits them all verbatim, with
`changed` and `has_eof` untouched, and `found` tracking the presence of
a matching record. -/
theorem calm_run (p : Params) (L : List Str) :
    (∀ l ∈ L, Calm p l) → ∀ st, ∃ st1,
      processLines p st L = .ok (st1, L) ∧
      st1.changed = st.changed ∧ st1.has_eof = st.has_eof ∧
      st1.found = (st.found || L.any fun l => isMatchLine p l) := by
  induction L with
  | nil =>
    intro _ st
    exact ⟨st, by simp [processLines], rfl, rfl, by simp⟩
  | cons l ls ih =>
    intro hcalm st
    obtain ⟨stm, hpl, h1, h2, h3⟩ := hcalm l (List.mem_cons_self ..) st
    obtain ⟨st1, hrest, g1, g2, g3⟩ :=
      ih (fun x hx => hcalm x (List.mem_cons_of_mem _ hx)) stm
    refine ⟨st1, ?_, by rw [g1, h1], by rw [g2, h2], ?_⟩
    · have := processLines_cons_ok p st stm st1 l ls [l] ls hpl hrest
      simpa using this
    · rw [g3, h3, List.any_cons, Bool.or_assoc]

end PamLimits

namespace PamLimits

/-- "Tail-newline-only": a newline may occur only as the last
character. -/
def TNO (s : Str) : Prop := '\n' ∉ s.dropLast

/-- The shapes the loop-carried `new_comment` can take when the caller
supplies no comment override: empty, or wrapped in `"\t#"`. -/
def NCshape (s : Str) : Prop := s = [] ∨ ∃ r, s = '\t' :: '#' :: r

/-- The state invariant of the first run: the comment is empty or
wrapped and tail-newline-only, and `new_value` still equals the
requested value while no match was found (and always, without policy
flags). -/
def GoodSt (p : Params) (st : St) : Prop :=
  NCshape st.new_comment ∧ TNO st.new_comment ∧
  (st.found = false → st.new_value = p.value) ∧
  ((p.use_max = false ∧ p.use_min = false) → st.new_value = p.value)

/-- `dropLast` ignores a non-empty right factor's boundary. -/
theorem dropLast_append_ne (a : Str) : ∀ b : Str, b ≠ [] →
    (a ++ b).dropLast = a ++ b.dropLast := by
  induction a with
  | nil => simp
  | cons x xs ih =>
    intro b hb
    rw [List.cons_append]
    cases hxb : xs ++ b with
    | nil =>
      rcases List.append_eq_nil.mp hxb with ⟨_, h2⟩
      exact absurd h2 hb
    | cons y t =>
      rw [show (x :: y :: t).dropLast = x :: (y :: t).dropLast from rfl, ← hxb,
        ih b hb, List.cons_append]

/-- A suffix of a tail-newline-only string is tail-newline-only. -/
theorem TNO_suffix (s l : Str) (hsuf : s <:+ l) (hl : TNO l) : TNO s := by
  obtain ⟨pre, rfl⟩ := hsuf
  cases hs : s with
  | nil => simp [TNO]
  | cons x t =>
    rw [← hs]
    intro hmem
    rw [TNO, dropLast_append_ne pre s (by simp [hs])] at hl
    exact hl (List.mem_append.mpr (Or.inr hmem))

/-- Well-formed lines are tail-newline-only. -/
theorem TNO_of_wf (l : Str) (h : WfNL l) : TNO l := by
  obtain ⟨w, rfl, hw⟩ := h
  rw [TNO, List.dropLast_concat ..]
  exact hw

/-- The comment extracted from a line is a suffix of the line. -/
theorem afterFirstHash_suffix (l : Str) : afterFirstHash l <:+ l := by
  unfold afterFirstHash
  cases hdw : l.dropWhile (fun c => c ≠ '#') with
  | nil => exact List.nil_suffix ..
  | cons x rest =>
    have h1 : (x :: rest) <:+ l := hdw ▸ List.dropWhile_suffix _
    exact List.IsSuffix.trans (List.suffix_cons x rest) h1

/-- The comment update always yields an empty or wrapped, tail-newline-
only comment. -/
theorem newCommentUpd_good (cur old : Str) (h1 : TNO cur) (h2 : TNO old) :
    NCshape (newCommentUpd cur old) ∧ TNO (newCommentUpd cur old) := by
  have htno : TNO (if cur = [] then old else cur) := by
    by_cases hc : cur = [] <;> simp [hc, h1, h2]
  set nc1 := if cur = [] then old else cur with hnc1
  have hval : newCommentUpd cur old =
      if nc1 ≠ [] then '\t' :: '#' :: nc1 else nc1 := rfl
  by_cases hne : nc1 = []
  · rw [hval, if_neg (by simp [hne]), hne]
    exact ⟨Or.inl rfl, by simp [TNO]⟩
  · rw [hval, if_pos hne]
    refine ⟨Or.inr ⟨nc1, rfl⟩, ?_⟩
    rw [TNO, show ('\t' :: '#' :: nc1) = ['\t', '#'] ++ nc1 from rfl,
      dropLast_append_ne _ _ hne]
    intro hmem
    rcases List.mem_append.mp hmem with h | h
    · simp only [List.mem_cons, List.not_mem_nil, or_false] at h
      rcases h with h | h <;> exact absurd h (by decide)
    · exact htno h

/-- When a policy (or none) leaves `codeNv` different from the existing
value, it is the requested value. -/
theorem codeNv_eq_value (p : Params) (st : St) (a : Int)
    (hflag : ¬(p.use_max = true ∧ p.use_min = true))
    (hnf : (p.use_max = false ∧ p.use_min = false) → st.new_value = p.value)
    (hne : codeNv p st a ≠ a) : codeNv p st a = p.value := by
  unfold codeNv at *
  cases hmin : p.use_min with
  | true =>
    rcases min_choice p.value a with h | h
    · simp [hmin, h]
    · rw [hmin] at hne
      simp [h] at hne
  | false =>
    rw [hmin] at hne
    cases hmax : p.use_max with
    | true =>
      rcases max_choice p.value a with h | h
      · simp [hmax, h]
      · rw [hmax] at hne
        simp [h] at hne
    | false =>
      rw [hmax] at hne
      simp at hne ⊢
      exact hnf ⟨hmax, hmin⟩

end PamLimits

namespace PamLimits

/-- A rewritten (or appended) record line carrying the requested value
and an empty-or-wrapped tail-newline-only comment: it ends in a newline,
all its physical lines are calm, and its first physical line is a
matching record. -/
theorem newLimit_chunk_good (p : Params) (nc : Str)
    (hd : PlainTok p.domain) (ht : PlainTok p.limit_type)
    (hi : PlainTok p.limit_item)
    (hshape : NCshape nc) (htno : TNO nc) :
    (newLimitLine p p.value nc).getLast? = some '\n' ∧
    (∀ x ∈ pyLines (newLimitLine p p.value nc), Calm p x) ∧
    (pyLines (newLimitLine p p.value nc)).any (fun x => isMatchLine p x) = true := by
  have hline : ∀ nc1 : Str, NCshape nc1 →
      (sentinelS.isPrefixOf (newLimitLine p p.value nc1) = false ∧
       List.isPrefixOf ['#'] (newLimitLine p p.value nc1) = false ∧
       normLine (newLimitLine p p.value nc1) ≠ [] ∧
       lineFields (newLimitLine p p.value nc1) =
         [p.domain, p.limit_type, p.limit_item, pyStr p.value]) := by
    intro nc1 hshape1
    obtain ⟨_, _, _, _, hpre1, hpre2⟩ := newLimit_head p p.value nc1 hd
    exact ⟨hpre1, hpre2, (recBody_newLimit p p.value nc1 hd ht hi hshape1).2,
      lineFields_newLimit p p.value nc1 hd ht hi hshape1⟩
  refine ⟨newLimitLine_getLast p p.value nc, ?_⟩
  by_cases hnl : '\n' ∈ nc
  · have hncne : nc ≠ [] := by intro h; rw [h] at hnl; cases hnl
    obtain ⟨r, rfl⟩ : ∃ r, nc = '\t' :: '#' :: r := by
      rcases hshape with h | h
      · exact absurd h hncne
      · exact h
    have hlastnl : ('\t' :: '#' :: r).getLast hncne = '\n' := by
      by_contra hx
      have hmem := hnl
      conv at hmem => rw [← List.dropLast_append_getLast hncne]
      rcases List.mem_append.mp hmem with h | h
      · exact htno h
      · rcases List.mem_singleton.mp h with h2
        exact hx h2.symm
    have hdecomp : '\t' :: '#' :: r =
        ('\t' :: '#' :: r).dropLast ++ ['\n'] := by
      conv_lhs => rw [← List.dropLast_append_getLast hncne]
      rw [hlastnl]
    have hnc1 : ('\t' :: '#' :: r).dropLast = '\t' :: '#' :: r.dropLast := by
      cases r with
      | nil => simp at hdecomp
      | cons y t => rfl
    have hnonl : '\n' ∉ ('\t' :: '#' :: r).dropLast := htno
    have hshape1 : NCshape (('\t' :: '#' :: r).dropLast) :=
      Or.inr ⟨r.dropLast, hnc1⟩
    rw [show newLimitLine p p.value ('\t' :: '#' :: r) =
        newLimitLine p p.value (('\t' :: '#' :: r).dropLast ++ ['\n']) from by
      conv_lhs => rw [hdecomp]]
    rw [pyLines_newLimit_nl p p.value _ hd ht hi hnonl]
    obtain ⟨hpre1, hpre2, hb, hf⟩ := hline _ hshape1
    constructor
    · intro x hx
      rcases List.mem_cons.mp hx with rfl | hx2
      · exact calm_exact p _ (pyStr p.value) hpre1 hpre2 hb hf (pyInt_pyStr p.value)
      · rcases List.mem_singleton.mp hx2 with rfl
        exact calm_blank p ['\n'] (by decide) (by decide) (by decide)
    · simp only [List.any_cons, Bool.or_eq_true]
      left
      exact isMatchLine_true_of p _ (pyStr p.value) hpre1 hpre2 hb hf
        (by simp [pyInt_pyStr])
  · rw [pyLines_newLimit_clean p p.value nc hd ht hi hnl]
    obtain ⟨hpre1, hpre2, hb, hf⟩ := hline nc hshape
    constructor
    · intro x hx
      rcases List.mem_singleton.mp hx with rfl
      exact calm_exact p _ (pyStr p.value) hpre1 hpre2 hb hf (pyInt_pyStr p.value)
    · simp only [List.any_cons, List.any_nil, Bool.or_false]
      exact isMatchLine_true_of p _ (pyStr p.value) hpre1 hpre2 hb hf
        (by simp [pyInt_pyStr])

end PamLimits

namespace PamLimits

/-- One step of the first run: from a good state, processing one
well-formed line preserves the invariant, emits only newline-terminated
chunks all of whose physical lines are calm, and sets `found` exactly
when some emitted physical line is a matching record. -/
theorem run1_head (p : Params)
    (hd : PlainTok p.domain) (ht : PlainTok p.limit_type)
    (hi : PlainTok p.limit_item)
    (hflag : ¬(p.use_max = true ∧ p.use_min = true))
    (l : Str) (hwf : WfNL l) (st : St) (hgs : GoodSt p st)
    (stm : St) (o1 : List Str)
    (hpl : processLine p st l = .ok (stm, o1)) :
    GoodSt p stm ∧
    (∀ c ∈ o1, c.getLast? = some '\n' ∧ ∀ x ∈ pyLines c, Calm p x) ∧
    stm.found = (st.found ||
      o1.any fun c => (pyLines c).any fun x => isMatchLine p x) := by
  obtain ⟨w, hlw, hwnl⟩ := hwf
  have hlast : l.getLast? = some '\n' := by
    rw [hlw]; exact List.getLast?_concat ..
  have hplines : pyLines l = [l] := by rw [hlw]; exact hlw ▸ pyLines_line w hwnl
  have hTNOl : TNO l := TNO_of_wf l ⟨w, hlw, hwnl⟩
  have hTNOc : TNO (afterFirstHash l) :=
    TNO_suffix _ _ (afterFirstHash_suffix l) hTNOl
  have hncg := newCommentUpd_good st.new_comment (afterFirstHash l) hgs.2.1 hTNOc
  have hgsC : GoodSt p (stComm st l) :=
    ⟨hncg.1, hncg.2, hgs.2.2.1, hgs.2.2.2⟩
  revert hpl
  refine @processLine_elim p st l
    (fun r => r = .ok (stm, o1) →
      GoodSt p stm ∧
      (∀ c ∈ o1, c.getLast? = some '\n' ∧ ∀ x ∈ pyLines c, Calm p x) ∧
      stm.found = (st.found ||
        o1.any fun c => (pyLines c).any fun x => isMatchLine p x))
    ?_ ?_ ?_ ?_ ?_ ?_ ?_ ?_ ?_
  · intro hs heq
    cases heq
    exact ⟨⟨hgs.1, hgs.2.1, hgs.2.2.1, hgs.2.2.2⟩, by simp, by simp⟩
  · intro hs hc heq
    cases heq
    have hmf : isMatchLine p l = false := by simp [isMatchLine, hc]
    refine ⟨hgs, ?_, by simp [hplines, hmf]⟩
    intro c hcm
    rcases List.mem_singleton.mp hcm with rfl
    exact ⟨hlast, fun x hx => by
      rcases List.mem_singleton.mp (hplines ▸ hx) with rfl
      exact calm_comment p _ hs hc⟩
  · intro hs hc hb heq
    cases heq
    have hmf : isMatchLine p l = false := by simp [isMatchLine, hb]
    refine ⟨hgs, ?_, by simp [hplines, hmf]⟩
    intro c hcm
    rcases List.mem_singleton.mp hcm with rfl
    exact ⟨hlast, fun x hx => by
      rcases List.mem_singleton.mp (hplines ▸ hx) with rfl
      exact calm_blank p _ hs hc hb⟩
  · intro hs hc hb hm heq
    cases heq
    have hmf : isMatchLine p l = false := isMatchLine_false_mal p l hm
    refine ⟨hgsC, ?_, by simp [stComm, hplines, hmf]⟩
    intro c hcm
    rcases List.mem_singleton.mp hcm with rfl
    exact ⟨hlast, fun x hx => by
      rcases List.mem_singleton.mp (hplines ▸ hx) with rfl
      exact calm_malformed p _ hs hc hb hm⟩
  · intro d t i v hs hc hb hf hv heq
    cases heq
  · intro d t i v a hs hc hb hf hv hk heq
    cases heq
    have hmf : isMatchLine p l = false := isMatchLine_false_key p l d t i v hf hk
    refine ⟨hgsC, ?_, by simp [stComm, hplines, hmf]⟩
    intro c hcm
    rcases List.mem_singleton.mp hcm with rfl
    exact ⟨hlast, fun x hx => by
      rcases List.mem_singleton.mp (hplines ▸ hx) with rfl
      exact calm_nonmatch p _ d t i v a hs hc hb hf hv hk⟩
  · intro v hs hc hb hf hv heq
    cases heq
    have hmt : isMatchLine p l = true :=
      isMatchLine_true_of p l v hs hc hb hf (by simp [hv])
    refine ⟨⟨hgsC.1, hgsC.2.1, ?_, ?_⟩, ?_, by simp [hplines, hmt]⟩
    · intro hff
      cases hff
    · exact hgs.2.2.2
    · intro c hcm
      rcases List.mem_singleton.mp hcm with rfl
      exact ⟨hlast, fun x hx => by
        rcases List.mem_singleton.mp (hplines ▸ hx) with rfl
        exact calm_exact p _ v hs hc hb hf hv⟩
  · intro v a hs hc hb hf hv hea hnveq heq
    cases heq
    have hmt : isMatchLine p l = true :=
      isMatchLine_true_of p l v hs hc hb hf (by simp [hv])
    have hcalml : Calm p l := by
      cases hmin : p.use_min with
      | true =>
        have hstab : min p.value a = a := by
          have h2 := hnveq
          unfold codeNv at h2
          rw [hmin] at h2
          simpa using h2
        exact calm_keep_min p l v a hs hc hb hf hv hea hmin hstab
      | false =>
        cases hmax : p.use_max with
        | true =>
          have hstab : max p.value a = a := by
            have h2 := hnveq
            unfold codeNv at h2
            rw [hmin, hmax] at h2
            simpa using h2
          exact calm_keep_max p l v a hs hc hb hf hv hea hmax hmin hstab
        | false =>
          exfalso
          have h2 := hnveq
          unfold codeNv at h2
          rw [hmin, hmax] at h2
          simp at h2
          exact hea ((hgs.2.2.2 ⟨hmax, hmin⟩) ▸ h2)
    refine ⟨⟨hgsC.1, hgsC.2.1, ?_, ?_⟩, ?_, by simp [hplines, hmt]⟩
    · intro hff
      cases hff
    · intro hnf
      have h2 := hnveq
      unfold codeNv at h2
      rw [hnf.1, hnf.2] at h2
      simp at h2
      exact h2 ▸ (hgs.2.2.2 hnf)
    · intro c hcm
      rcases List.mem_singleton.mp hcm with rfl
      exact ⟨hlast, fun x hx => by
        rcases List.mem_singleton.mp (hplines ▸ hx) with rfl
        exact hcalml⟩
  · intro v a hs hc hb hf hv hea hnvne heq
    cases heq
    have hval : codeNv p st a = p.value :=
      codeNv_eq_value p st a hflag hgs.2.2.2 hnvne
    have hchunk := newLimit_chunk_good p
      (newCommentUpd st.new_comment (afterFirstHash l)) hd ht hi hncg.1 hncg.2
    rw [hval]
    refine ⟨⟨hgsC.1, hgsC.2.1, ?_, ?_⟩, ?_, ?_⟩
    · intro hff
      cases hff
    · intro _
      rfl
    · intro c hcm
      rcases List.mem_singleton.mp hcm with rfl
      exact ⟨hchunk.1, hchunk.2.1⟩
    · simp [hchunk.2.2]

end PamLimits

namespace PamLimits

/-- The loop over a concatenation is the concatenation of the loops. -/
theorem processLines_append_ok (p : Params) (xs : List Str) :
    ∀ (ys : List Str) (st st1 st2 : St) (o1 o2 : List Str),
      processLines p st xs = .ok (st1, o1) →
      processLines p st1 ys = .ok (st2, o2) →
      processLines p st (xs ++ ys) = .ok (st2, o1 ++ o2) := by
  induction xs with
  | nil =>
    intro ys st st1 st2 o1 o2 h1 h2
    simp only [processLines] at h1
    cases h1
    simpa using h2
  | cons x xs ih =>
    intro ys st st1 st2 o1 o2 h1 h2
    cases hpl : processLine p st x with
    | error e => rw [processLines_cons_error p st x xs e hpl] at h1; cases h1
    | ok r =>
      obtain ⟨stm, oh⟩ := r
      cases hrest : processLines p stm xs with
      | error e =>
        rw [processLines_cons_error2 p st stm x xs oh e hpl hrest] at h1
        cases h1
      | ok r2 =>
        obtain ⟨stx, ox⟩ := r2
        rw [processLines_cons_ok p st stm stx x xs oh ox hpl hrest] at h1
        cases h1
        have hzz := ih ys stm _ st2 _ o2 hrest h2
        rw [List.cons_append,
          processLines_cons_ok p st stm st2 x (xs ++ ys) oh (ox ++ o2) hpl hzz]
        simp

/-- A non-empty list of newline-terminated chunks flattens to a
newline-terminated string. -/
theorem flatten_getLast (cs : List Str) :
    (∀ c ∈ cs, c.getLast? = some '\n') → cs ≠ [] →
    cs.flatten.getLast? = some '\n' := by
  induction cs with
  | nil => intro _ h; exact absurd rfl h
  | cons c rest ih =>
    intro h _
    cases hr : rest with
    | nil =>
      simp only [List.flatten_cons, hr, List.flatten_nil, List.append_nil]
      exact h c (List.mem_cons_self ..)
    | cons d ds =>
      rw [List.flatten_cons]
      have htail := ih (fun x hx => h x (List.mem_cons_of_mem _ hx)) (by simp [hr])
      rw [← hr, List.getLast?_append, htail]
      rfl

/-- Loop-level invariant of the first run (see `run1_head`). -/
theorem run1_inv (p : Params)
    (hd : PlainTok p.domain) (ht : PlainTok p.limit_type)
    (hi : PlainTok p.limit_item)
    (hflag : ¬(p.use_max = true ∧ p.use_min = true)) :
    ∀ (L : List Str), (∀ l ∈ L, WfNL l) →
    ∀ (st st1 : St) (out : List Str), GoodSt p st →
      processLines p st L = .ok (st1, out) →
      GoodSt p st1 ∧
      (∀ c ∈ out, c.getLast? = some '\n' ∧ ∀ x ∈ pyLines c, Calm p x) ∧
      st1.found = (st.found ||
        out.any fun c => (pyLines c).any fun x => isMatchLine p x) := by
  intro L
  induction L with
  | nil =>
    intro _ st st1 out hgs h
    simp only [processLines] at h
    cases h
    exact ⟨hgs, by simp, by simp⟩
  | cons l ls ih =>
    intro hwf st st1 out hgs h
    cases hpl : processLine p st l with
    | error e => rw [processLines_cons_error p st l ls e hpl] at h; cases h
    | ok r =>
      obtain ⟨stm, o1⟩ := r
      cases hrest : processLines p stm ls with
      | error e =>
        rw [processLines_cons_error2 p st stm l ls o1 e hpl hrest] at h
        cases h
      | ok r2 =>
        obtain ⟨st2, o2⟩ := r2
        rw [processLines_cons_ok p st stm st2 l ls o1 o2 hpl hrest] at h
        cases h
        obtain ⟨hg1, hc1, hf1⟩ := run1_head p hd ht hi hflag l
          (hwf l (List.mem_cons_self ..)) st hgs stm o1 hpl
        obtain ⟨hg2, hc2, hf2⟩ := ih (fun x hx => hwf x (List.mem_cons_of_mem _ hx))
          stm st1 o2 hg1 hrest
        refine ⟨hg2, ?_, ?_⟩
        · intro c hc
          rcases List.mem_append.mp hc with h1 | h2
          · exact hc1 c h1
          · exact hc2 c h2
        · rw [hf2, hf1, List.any_append, Bool.or_assoc]

end PamLimits

namespace PamLimits

/-- A second run over calm lines containing a match: nothing changes and
every line is re-emitted. -/
theorem run2_noSentinel (p : Params)
    (hfl : (p.use_max && p.use_min) = false) (L2 : List Str)
    (hcalm : ∀ x ∈ L2, Calm p x)
    (hany : (L2.any fun x => isMatchLine p x) = true) :
    ∃ m, runMain p L2 = .ok (false, L2, m) := by
  obtain ⟨stA, hproc, hch, hhe, hfo⟩ := calm_run p L2 hcalm (initSt p)
  have hchf : stA.changed = false := by rw [hch]; rfl
  have hhef : stA.has_eof = false := by rw [hhe]; rfl
  have hfot : stA.found = true := by rw [hfo]; simp [initSt, hany]
  exact ⟨stA.message, by simp [runMain, hfl, hproc, hfot, hhef, hchf]⟩

/-- A second run over calm lines containing a match, followed by the
sentinel: nothing changes, the lines are re-emitted and the sentinel is
re-appended last. -/
theorem run2_sentinel (p : Params)
    (hfl : (p.use_max && p.use_min) = false) (L2 : List Str)
    (hcalm : ∀ x ∈ L2, Calm p x)
    (hany : (L2.any fun x => isMatchLine p x) = true) :
    ∃ m, runMain p (L2 ++ [sentinelS]) = .ok (false, L2 ++ [sentinelS], m) := by
  obtain ⟨stA, hproc, hch, hhe, hfo⟩ := calm_run p L2 hcalm (initSt p)
  have hchf : stA.changed = false := by rw [hch]; rfl
  have hfot : stA.found = true := by rw [hfo]; simp [initSt, hany]
  have hsent : processLine p stA sentinelS =
      .ok ({ stA with has_eof := true }, []) := by
    simp [processLine, (by decide : sentinelS.isPrefixOf sentinelS = true)]
  have hone : processLines p stA [sentinelS] =
      .ok ({ stA with has_eof := true }, []) := by
    have h0 : processLines p { stA with has_eof := true } [] =
        .ok ({ stA with has_eof := true }, []) := rfl
    have h2 := processLines_cons_ok p stA { stA with has_eof := true }
      { stA with has_eof := true } sentinelS [] [] [] hsent h0
    simpa using h2
  have hall := processLines_append_ok p L2 [sentinelS] (initSt p) stA
    { stA with has_eof := true } L2 [] hproc hone
  rw [List.append_nil] at hall
  exact ⟨stA.message, by simp [runMain, hfl, hall, hfot, hchf]⟩

/-- Finishing step: applying the request to the flattened output of a
first run (a body of calm newline-terminated chunks containing a match,
plus an optional trailing sentinel) changes nothing. -/
theorem finish_second (p : Params)
    (hfl : (p.use_max && p.use_min) = false)
    (body : List Str) (heof : Bool)
    (hbc : ∀ c ∈ body, c.getLast? = some '\n' ∧ ∀ x ∈ pyLines c, Calm p x)
    (hba : (body.any fun c => (pyLines c).any fun x => isMatchLine p x) = true) :
    applyOnce p ((if heof then body ++ [sentinelS] else body).flatten) =
      .ok (false, (if heof then body ++ [sentinelS] else body).flatten) := by
  have hbne : body ≠ [] := by
    intro h
    rw [h] at hba
    cases hba
  have hends : ∀ c ∈ body, c.getLast? = some '\n' := fun c hc => (hbc c hc).1
  have hflast : body.flatten.getLast? = some '\n' := flatten_getLast body hends hbne
  have hL2 : pyLines body.flatten = (body.map pyLines).flatten :=
    pyLines_flatten body hends
  have hcalm2 : ∀ x ∈ (body.map pyLines).flatten, Calm p x := by
    intro x hx
    obtain ⟨l, hl, hxl⟩ := List.mem_flatten.mp hx
    obtain ⟨c, hc, rfl⟩ := List.mem_map.mp hl
    exact (hbc c hc).2 x hxl
  have hany2 : ((body.map pyLines).flatten.any fun x => isMatchLine p x) = true := by
    obtain ⟨c, hc, hcx⟩ := List.any_eq_true.mp hba
    obtain ⟨x, hx, hxm⟩ := List.any_eq_true.mp hcx
    exact List.any_eq_true.mpr
      ⟨x, List.mem_flatten.mpr ⟨pyLines c, List.mem_map.mpr ⟨c, hc, rfl⟩, hx⟩, hxm⟩
  have hflatL2 : (body.map pyLines).flatten.flatten = body.flatten := by
    rw [← hL2, flatten_pyLines]
  cases heof with
  | false =>
    simp only [Bool.false_eq_true, if_false]
    obtain ⟨m, hms⟩ := run2_noSentinel p hfl _ hcalm2 hany2
    unfold applyOnce
    rw [hL2, hms]
    simp [hflatL2]
  | true =>
    simp only [if_true]
    have hflat : (body ++ [sentinelS]).flatten = body.flatten ++ sentinelS := by
      simp
    have hsplit : pyLines (body.flatten ++ sentinelS) =
        (body.map pyLines).flatten ++ [sentinelS] := by
      rw [pyLines_append _ _ hflast, hL2,
        pyLines_no_nl sentinelS (by decide) (by decide)]
    obtain ⟨m, hms⟩ := run2_sentinel p hfl _ hcalm2 hany2
    unfold applyOnce
    rw [hflat, hsplit, hms]
    simp [hflatL2]

end PamLimits

namespace PamLimits

/-- C3 (amended): the reconciliation is idempotent provided the domain
is a plain token (non-empty, no whitespace, no `#` — the module accepts
arbitrary strings but only such domains round-trip), `limit_type` and
`limit_item` are among the module's validated choices, no comment
override is supplied, and the file is empty or newline-terminated:
applying the request to the output of a successful first application
reports `changed = false` and leaves the content byte-identical. -/
theorem C3_idempotent_amended (p : Params) (content : Str) (ch : Bool)
    (out1 : Str)
    (hd0 : p.domain ≠ []) (hd1 : ∀ c ∈ p.domain, pyIsSpace c = false)
    (hd2 : '#' ∉ p.domain)
    (ht : p.limit_type ∈ pamTypes) (hi : p.limit_item ∈ pamItems)
    (hcom : p.comment = [])
    (hnl : content = [] ∨ content.getLast? = some '\n')
    (h1 : applyOnce p content = .ok (ch, out1)) :
    applyOnce p out1 = .ok (false, out1) := by
  have hdP : PlainTok p.domain := ⟨hd0, hd1, hd2⟩
  have htP : PlainTok p.limit_type := pamTypes_plain _ ht
  have hiP : PlainTok p.limit_item := pamItems_plain _ hi
  unfold applyOnce at h1
  cases hrm : runMain p (pyLines content) with
  | error e => rw [hrm] at h1; cases h1
  | ok r =>
    obtain ⟨ch0, chunks, m0⟩ := r
    rw [hrm] at h1
    cases h1
    by_cases hfl : (p.use_max && p.use_min) = true
    · rw [runMain, if_pos hfl] at hrm
      cases hrm
    have hfl' : (p.use_max && p.use_min) = false := by
      cases h2 : (p.use_max && p.use_min)
      · rfl
      · exact absurd h2 hfl
    have hflag : ¬(p.use_max = true ∧ p.use_min = true) := by
      rintro ⟨ha, hb⟩
      rw [ha, hb] at hfl'
      cases hfl'
    rw [runMain, if_neg (by simp [hfl'])] at hrm
    cases hpl : processLines p (initSt p) (pyLines content) with
    | error e => rw [hpl] at hrm; cases hrm
    | ok r1 =>
      obtain ⟨st, out⟩ := r1
      rw [hpl] at hrm
      have hwfL : ∀ l ∈ pyLines content, WfNL l := by
        rcases hnl with rfl | hlast
        · intro l hl; cases hl
        · exact pyLines_wf content hlast
      have hgs0 : GoodSt p (initSt p) :=
        ⟨Or.inl hcom, by simp [initSt, hcom, TNO], fun _ => rfl, fun _ => rfl⟩
      obtain ⟨hgsF, hchunksF, hfoundF⟩ := run1_inv p hdP htP hiP hflag
        (pyLines content) hwfL (initSt p) st out hgs0 hpl
      by_cases hfound : st.found = true
      · have hkey : (Except.ok (st.changed,
            (if st.has_eof then out ++ [sentinelS] else out), st.message) :
              Except Str (Bool × List Str × Str)) =
            .ok (ch, chunks, m0) := by
          rw [← hrm]
          simp [hfound]
        obtain ⟨e1, e2, e3⟩ : st.changed = ch ∧
            (if st.has_eof then out ++ [sentinelS] else out) = chunks ∧
            st.message = m0 := by simpa using hkey
        have hbodyany : (out.any fun c =>
            (pyLines c).any fun x => isMatchLine p x) = true := by
          have h2 : true = (out.any fun c =>
              (pyLines c).any fun x => isMatchLine p x) := by
            rw [← hfound]
            simpa [initSt] using hfoundF
          exact h2.symm
        rw [← e2]
        exact finish_second p hfl' out st.has_eof hchunksF hbodyany
      · have hfound' : st.found = false := by
          cases h2 : st.found
          · rfl
          · exact absurd h2 hfound
        have hnv : st.new_value = p.value := hgsF.2.2.1 hfound'
        have hkey : (Except.ok (true,
            (if st.has_eof
             then (out ++ [newLimitLine p p.value st.new_comment]) ++ [sentinelS]
             else out ++ [newLimitLine p p.value st.new_comment]),
            newLimitLine p p.value st.new_comment) :
              Except Str (Bool × List Str × Str)) =
            .ok (ch, chunks, m0) := by
          rw [← hrm]
          simp [hfound', hnv]
        obtain ⟨e1, e2, e3⟩ : true = ch ∧
            (if st.has_eof
             then (out ++ [newLimitLine p p.value st.new_comment]) ++ [sentinelS]
             else out ++ [newLimitLine p p.value st.new_comment]) = chunks ∧
            newLimitLine p p.value st.new_comment = m0 := by simpa using hkey
        have hchunk := newLimit_chunk_good p st.new_comment hdP htP hiP
          hgsF.1 hgsF.2.1
        have hbc : ∀ c ∈ out ++ [newLimitLine p p.value st.new_comment],
            c.getLast? = some '\n' ∧ ∀ x ∈ pyLines c, Calm p x := by
          intro c hc
          rcases List.mem_append.mp hc with h2 | h2
          · exact hchunksF c h2
          · rcases List.mem_singleton.mp h2 with rfl
            exact ⟨hchunk.1, hchunk.2.1⟩
        have hba : ((out ++ [newLimitLine p p.value st.new_comment]).any
            fun c => (pyLines c).any fun x => isMatchLine p x) = true := by
          rw [List.any_append]
          simp [hchunk.2.2]
        rw [← e2]
        exact finish_second p hfl' (out ++ [newLimitLine p p.value st.new_comment])
          st.has_eof hbc hba

/-- Witness for the amended C3: joe/soft/nofile = 5 against a file
holding value 4; the first application rewrites the line, the second
changes nothing. -/
theorem C3_witness :
    applyOnce ⟨"joe".toList, "soft".toList, "nofile".toList, 5, false, false, []⟩
      "joe soft nofile 4\n".toList =
      .ok (true, "joe\tsoft\tnofile\t5\n".toList) ∧
    applyOnce ⟨"joe".toList, "soft".toList, "nofile".toList, 5, false, false, []⟩
      "joe\tsoft\tnofile\t5\n".toList =
      .ok (false, "joe\tsoft\tnofile\t5\n".toList) :=
  ⟨rfl,
   C3_idempotent_amended
     ⟨"joe".toList, "soft".toList, "nofile".toList, 5, false, false, []⟩
     "joe soft nofile 4\n".toList true "joe\tsoft\tnofile\t5\n".toList
     (by decide) (by decide) (by decide) (by decide) (by decide) rfl
     (Or.inr (by decide)) rfl⟩

end PamLimits
